import Mathlib

/-!
Shallow embedding of the process-identity and sampling engine of
`ambari-metrics-host-monitoring/.../psutil/psutil/__init__.py`.

Machine floats are modelled by rationals; Python `round(x, 1)` is modelled
by round-half-to-even on rationals; a Python function that can raise is
modelled with `Except`/`Option`; mutable object state is passed explicitly.
-/

namespace Psutil

/-- Python `round` to an integer: round half to even (banker's rounding). -/
def pyRound (q : ℚ) : ℤ :=
  if q - ⌊q⌋ = 1 / 2 then (if ⌊q⌋ % 2 = 0 then ⌊q⌋ else ⌊q⌋ + 1) else ⌊q + 1 / 2⌋

/-- Python `round(x, 1)`: one decimal digit. -/
def round1 (q : ℚ) : ℚ := (pyRound (10 * q) : ℚ) / 10

/-- System-wide CPU times namedtuple (`scputimes`), restricted to the three
fields every platform provides; `sum(t)` in the source sums all fields. -/
structure SCpuTimes where
  user : ℚ
  system : ℚ
  idle : ℚ
deriving DecidableEq, Repr

/-- Sum of all fields of the namedtuple, as Python `sum(t)`. -/
def sumTimes (t : SCpuTimes) : ℚ := t.user + t.system + t.idle

/-- Per-process CPU times `(user, system)` returned by `_proc.cpu_times()`. -/
structure PCpuTimes where
  user : ℚ
  system : ℚ
deriving DecidableEq, Repr

/-- The two "last sample" slots of a `Process` object
(`_last_sys_cpu_times`, `_last_proc_cpu_times`). -/
structure CpuSlots where
  lastSys : Option ℚ
  lastProc : Option PCpuTimes
deriving DecidableEq, Repr

/-- Non-blocking branch of `Process.cpu_percent` (lines 843-871): `st2` is the
current `timer()` reading, `pt2` the current process CPU times.  Returns the
percentage and the updated sample slots.  A `ZeroDivisionError` from
`delta_proc / delta_time` (possible only when `delta_time = 0`) is caught and
turned into `0.0`. -/
def cpu_percent_process (slots : CpuSlots) (st2 : ℚ) (pt2 : PCpuTimes)
    (numCpus : ℕ) : ℚ × CpuSlots :=
  match slots.lastSys, slots.lastProc with
  | some st1, some pt1 =>
    let delta_proc := (pt2.user - pt1.user) + (pt2.system - pt1.system)
    let delta_time := st2 - st1
    let slots2 : CpuSlots := ⟨some st2, some pt2⟩
    if delta_time = 0 then (0, slots2)
    else (round1 (delta_proc / delta_time * 100 * (numCpus : ℚ)), slots2)
  | _, _ => (0, ⟨some st2, some pt2⟩)

/-- The local `calculate(t1, t2)` of the module-level `cpu_percent`
(lines 1486-1500).  `busy_delta / all_delta` is Python float division, which
raises `ZeroDivisionError` when `all_delta = 0`; that exception is NOT caught
in this function, hence the `Except`. -/
def cpu_percent_calculate (t1 t2 : SCpuTimes) : Except Unit ℚ :=
  let t1_busy := sumTimes t1 - t1.idle
  let t2_busy := sumTimes t2 - t2.idle
  if t2_busy ≤ t1_busy then .ok 0
  else
    let busy_delta := t2_busy - t1_busy
    let all_delta := sumTimes t2 - sumTimes t1
    if all_delta = 0 then .error () else .ok (round1 (busy_delta / all_delta * 100))

/-- Non-blocking module-level `cpu_percent` (system-wide, `percpu=False`):
`last` is the stored `_last_cpu_times` (initialized at import time by
`_last_cpu_times = cpu_times()`), `current` the fresh `cpu_times()` sample.
Returns the result and the new stored sample. -/
def cpu_percent_nonblocking (last current : SCpuTimes) : Except Unit ℚ × SCpuTimes :=
  (cpu_percent_calculate last current, current)

/-- The Windows-only clamp of an out-of-range field percentage
(lines 1558-1574): applied only when `_WINDOWS`. -/
def clampField (isWindows : Bool) (q : ℚ) : ℚ :=
  if isWindows then (if 100 < q then 100 else if q < 0 then 0 else q) else q

/-- One field of `cpu_times_percent.calculate`: `(100 * field_delta) / all_delta`
with `ZeroDivisionError` caught and replaced by `0.0`, then `round(_, 1)`,
then the Windows-only clamp. -/
def field_percent (isWindows : Bool) (all_delta field_delta : ℚ) : ℚ :=
  clampField isWindows (round1 (if all_delta = 0 then 0 else 100 * field_delta / all_delta))

/-- The local `calculate(t1, t2)` of `cpu_times_percent` (lines 1548-1576):
a percentage per named field, each relative to the total delta. -/
def cpu_times_percent_calculate (isWindows : Bool) (t1 t2 : SCpuTimes) : SCpuTimes :=
  let all_delta := sumTimes t2 - sumTimes t1
  ⟨field_percent isWindows all_delta (t2.user - t1.user),
   field_percent isWindows all_delta (t2.system - t1.system),
   field_percent isWindows all_delta (t2.idle - t1.idle)⟩

/-- Modelled from the spec words of C9: each field is
`round((100 * field_delta) / total_delta, 1)`, and `0.0` when the total delta
is zero.  Used to compare the source's calculation against the claim. -/
def spec_field_percent (total_delta field_delta : ℚ) : ℚ :=
  if total_delta = 0 then 0 else round1 (100 * field_delta / total_delta)

/-- Provider facts consumed by `pid_exists`: the platform `pids()` list and
the platform `pid_exists` primitive. -/
structure PidProvider where
  pidList : List ℤ
  pidExistsNative : ℤ → Bool

/-- Module-level `pid_exists` (lines 1237-1252).  The second component counts
how many provider calls were made (either `pids()` or the platform
`pid_exists`), so that "without consulting the provider" is expressible. -/
def pid_exists (posix : Bool) (prov : PidProvider) (pid : ℤ) : Bool × ℕ :=
  if pid < 0 then (false, 0)
  else if pid = 0 ∧ posix = true then (decide (pid ∈ prov.pidList), 1)
  else (prov.pidExistsNative pid, 1)

/-- What the platform provider reports for one PID: the process does not
exist (`dead`), the platform `Process(pid)` constructor itself raises
`AccessDenied` (`deniedInit`), or the process is live with the given creation
time (`none` when `create_time()` raises `AccessDenied`, which `_init`
swallows). -/
inductive PStatus where
  | dead
  | deniedInit
  | live (ct : Option ℚ)
deriving DecidableEq, Repr

/-- A snapshot of the provider-visible system state. -/
structure World where
  status : ℕ → PStatus
  ppidOf : ℕ → Option ℕ

/-- The state of one `Process` object that the claims depend on: `_pid`, the
creation-time half of `_ident` (the pid half always equals `_pid`), the
sticky `_gone` flag, and an allocation tag standing for Python object
identity (two constructions never share a tag). -/
structure PHandle where
  pid : ℕ
  identCt : Option ℚ
  gone : Bool
  tag : ℕ
deriving DecidableEq, Repr

/-- The two psutil exception classes the modelled paths can raise. -/
inductive PErr where
  | noSuchProcess (pid : ℕ)
  | accessDenied (pid : ℕ)
deriving DecidableEq, Repr

/-- A provider action carried out on a PID (the observable effect of a
set-operation being forwarded to the platform layer). -/
inductive Effect where
  | signal (pid : ℕ) (sig : ℤ)
  | ioniceSet (pid : ℕ) (ioclass value : ℤ)
  | rlimitSet (pid : ℕ) (resource soft hard : ℤ)
  | affinitySet (pid : ℕ) (cpus : List ℕ)
  | niceSet (pid : ℕ) (value : ℤ)
deriving DecidableEq, Repr

/-- `Process.__init__` / `_init` (lines 295-338): raises `NoSuchProcess` when
the pid is gone, propagates the provider's `AccessDenied` from the platform
constructor, otherwise caches `_ident = (pid, create_time)` (creation time
`none` when `create_time()` raised `AccessDenied`, which is swallowed). -/
def mkProcess (w : World) (pid tag : ℕ) : Except PErr PHandle :=
  match w.status pid with
  | .dead => .error (.noSuchProcess pid)
  | .deniedInit => .error (.accessDenied pid)
  | .live ct => .ok ⟨pid, ct, false, tag⟩

/-- `Process.is_running` (lines 444-460): `False` immediately when `_gone`;
otherwise construct a fresh `Process(self.pid)` and compare `_ident`s.  A
`NoSuchProcess` from the construction is caught, sets `_gone` and gives
`False`; an `AccessDenied` propagates.  Returns the result together with the
(possibly mutated) handle. -/
def isRunningE (w : World) (h : PHandle) : Except PErr (Bool × PHandle) :=
  if h.gone then .ok (false, h)
  else
    match mkProcess w h.pid 0 with
    | .error (.noSuchProcess _) => .ok (false, { h with gone := true })
    | .error e => .error e
    | .ok p => .ok (decide (h.identCt = p.identCt), h)

/-- `Process.create_time` (lines 570-577): the cached value when present,
otherwise a fresh provider call that may raise. -/
def create_time (w : World) (h : PHandle) : Except PErr ℚ :=
  match h.identCt with
  | some c => .ok c
  | none =>
    match w.status h.pid with
    | .live (some c) => .ok c
    | .live none => .error (.accessDenied h.pid)
    | .dead => .error (.noSuchProcess h.pid)
    | .deniedInit => .error (.accessDenied h.pid)

/-- `Process._send_signal` (lines 966-976, POSIX): `os.kill`; `ESRCH` sets
`_gone` and raises `NoSuchProcess`, `EPERM` raises `AccessDenied`. -/
def _send_signal (w : World) (h : PHandle) (sig : ℤ) : Except PErr Effect × PHandle :=
  match w.status h.pid with
  | .dead => (.error (.noSuchProcess h.pid), { h with gone := true })
  | .deniedInit => (.error (.accessDenied h.pid), h)
  | .live _ => (.ok (.signal h.pid sig), h)

/-- The `@_assert_pid_not_reused` decorator (lines 250-259) applied to the
POSIX `_send_signal` body: shared shape of `send_signal`, `suspend`,
`resume`, `terminate` and `kill`. -/
def guardedSignal (w : World) (h : PHandle) (sig : ℤ) : Except PErr Effect × PHandle :=
  match isRunningE w h with
  | .error e => (.error e, h)
  | .ok (false, h2) => (.error (.noSuchProcess h2.pid), h2)
  | .ok (true, h2) => _send_signal w h2 sig

/-- `Process.send_signal` (lines 978-991, POSIX path): guarded. -/
def send_signal (w : World) (h : PHandle) (sig : ℤ) : Except PErr Effect × PHandle :=
  guardedSignal w h sig

/-- `Process.suspend` (POSIX: guarded SIGSTOP). -/
def suspend (w : World) (h : PHandle) : Except PErr Effect × PHandle :=
  guardedSignal w h 19

/-- `Process.resume` (POSIX: guarded SIGCONT). -/
def resume (w : World) (h : PHandle) : Except PErr Effect × PHandle :=
  guardedSignal w h 18

/-- `Process.terminate` (POSIX: guarded SIGTERM). -/
def terminate (w : World) (h : PHandle) : Except PErr Effect × PHandle :=
  guardedSignal w h 15

/-- `Process.kill` (POSIX: guarded SIGKILL). -/
def kill (w : World) (h : PHandle) : Except PErr Effect × PHandle :=
  guardedSignal w h 9

/-- Set branch of `Process.nice` (lines 583-590): an inline
`if not self.is_running(): raise NoSuchProcess` guard, then the provider
call. -/
def nice (w : World) (h : PHandle) (value : ℤ) : Except PErr Effect × PHandle :=
  match isRunningE w h with
  | .error e => (.error e, h)
  | .ok (false, h2) => (.error (.noSuchProcess h2.pid), h2)
  | .ok (true, h2) =>
    match w.status h2.pid with
    | .dead => (.error (.noSuchProcess h2.pid), h2)
    | _ => (.ok (.niceSet h2.pid value), h2)

/-- Set branch of `Process.ionice` (lines 633-650): NO identity guard in the
source — the call is forwarded straight to `self._proc.ionice_set`. -/
def ionice (w : World) (h : PHandle) (ioclass value : ℤ) : Except PErr Effect × PHandle :=
  match w.status h.pid with
  | .dead => (.error (.noSuchProcess h.pid), h)
  | _ => (.ok (.ioniceSet h.pid ioclass value), h)

/-- Set branch of `Process.rlimit` (lines 655-668): NO identity guard in the
source — the call is forwarded straight to `self._proc.rlimit`. -/
def rlimit (w : World) (h : PHandle) (resource soft hard : ℤ) : Except PErr Effect × PHandle :=
  match w.status h.pid with
  | .dead => (.error (.noSuchProcess h.pid), h)
  | _ => (.ok (.rlimitSet h.pid resource soft hard), h)

/-- Set branch of `Process.cpu_affinity` (lines 673-681): NO identity guard in
the source — the call is forwarded straight to `self._proc.cpu_affinity_set`. -/
def cpu_affinity (w : World) (h : PHandle) (cpus : List ℕ) : Except PErr Effect × PHandle :=
  match w.status h.pid with
  | .dead => (.error (.noSuchProcess h.pid), h)
  | _ => (.ok (.affinitySet h.pid cpus), h)

/-- `Process.parent` (lines 429-442): NO identity guard on `self` in the
source.  `self.ppid()` queries the provider for the current occupant of
`self.pid`; a parent older than `self` is returned, otherwise `None`;
`NoSuchProcess` from the parent construction is caught. -/
def parent (w : World) (h : PHandle) : Except PErr (Option PHandle) :=
  match w.status h.pid with
  | .dead => .error (.noSuchProcess h.pid)
  | .deniedInit => .error (.accessDenied h.pid)
  | .live _ =>
    match w.ppidOf h.pid with
    | none => .ok none
    | some ppid =>
      match mkProcess w ppid 0 with
      | .error (.noSuchProcess _) => .ok none
      | .error e => .error e
      | .ok par =>
        match create_time w par with
        | .error e => .error e
        | .ok pc =>
          match create_time w h with
          | .error e => .error e
          | .ok sc => if pc ≤ sc then .ok (some par) else .ok none

/-- Concrete world for C1: pid 5 is occupied by a NEW process (creation time
200 instead of the cached 100 — the PID has been reused), whose parent is
pid 3. -/
def wC1 : World :=
  { status := fun p => if p = 5 then .live (some 200)
      else if p = 3 then .live (some 50) else .dead,
    ppidOf := fun p => if p = 5 then some 3 else none }

/-- The stale handle for C1: cached identity (5, 100.0). -/
def hC1 : PHandle := ⟨5, some 100, false, 0⟩

/-- Concrete world for C2, first snapshot: pid 5 reused (creation time 200). -/
def wC2a : World :=
  { status := fun p => if p = 5 then .live (some 200) else .dead,
    ppidOf := fun _ => none }

/-- Concrete world for C2, second snapshot: pid 5 again carries the original
creation time 100. -/
def wC2b : World :=
  { status := fun p => if p = 5 then .live (some 100) else .dead,
    ppidOf := fun _ => none }

/-- The handle for C2: cached identity (5, 100.0). -/
def hC2 : PHandle := ⟨5, some 100, false, 0⟩

/-- A process observed while building the parent→children table of
`children(recursive=True)`: its PID and the outcome of `child.create_time()`
(`none` models the call raising `NoSuchProcess`, which the walk catches and
skips). -/
structure CHandle where
  pid : ℕ
  ct : Option ℚ
deriving DecidableEq, Repr

/-- Lookup in the `defaultdict(list)` table: the entry's list, or `[]`. -/
def tableLookup : List (ℕ × List CHandle) → ℕ → List CHandle
  | [], _ => []
  | e :: rest, pid => if e.1 = pid then e.2 else tableLookup rest pid

/-- One child inside the inner loop of the recursive walk (lines 789-801):
`create_time()` raising skips the child; a child at least as old as the
ROOT (`self`) is appended to `ret`, and its pid is appended to `checkpids`
unless already present. -/
def childStep (rootCt : ℚ) (acc : List CHandle × List ℕ) (child : CHandle) :
    List CHandle × List ℕ :=
  match child.ct with
  | none => acc
  | some c =>
    if rootCt ≤ c then
      (acc.1 ++ [child], if child.pid ∈ acc.2 then acc.2 else acc.2 ++ [child.pid])
    else acc

/-- The `for pid in checkpids` loop of `children(recursive=True)`
(lines 788-801): Python iterates by index over the growing `checkpids` list;
`fuel` bounds the number of expansions (the termination theorem shows
`|universe| + 1` expansions always suffice). -/
def children_recursive (table : List (ℕ × List CHandle)) (rootCt : ℚ) :
    ℕ → List ℕ → ℕ → List CHandle → Option (List CHandle × List ℕ)
  | 0, _, _, _ => none
  | fuel + 1, cps, i, ret =>
    if hlt : i < cps.length then
      let r := (tableLookup table (cps.get ⟨i, hlt⟩)).foldl (childStep rootCt) (ret, cps)
      children_recursive table rootCt fuel r.2 (i + 1) r.1
    else some (ret, cps)

/-- All pids occurring as children anywhere in the table. -/
def allChildPids : List (ℕ × List CHandle) → List ℕ
  | [] => []
  | e :: rest => e.2.map CHandle.pid ++ allChildPids rest

/-- The finite pid universe the walk can ever touch. -/
def childUniverse (table : List (ℕ × List CHandle)) (rootPid : ℕ) : Finset ℕ :=
  insert rootPid (allChildPids table).toFinset

/-- `children(recursive=True)` after the table has been built: start the walk
at the root's pid with enough fuel.  `rootCt` is the root's cached
`create_time()`. -/
def children_rec (table : List (ℕ × List CHandle)) (rootPid : ℕ) (rootCt : ℚ) :
    Option (List CHandle × List ℕ) :=
  children_recursive table rootCt ((childUniverse table rootPid).card + 1) [rootPid] 0 []

/-- Lookup of a pid in the `_pmap` cache (Python dict access). -/
def alookup (p : ℕ) : List (ℕ × PHandle) → Option PHandle
  | [] => none
  | e :: rest => if e.1 = p then some e.2 else alookup p rest

/-- Keys of the `_pmap` cache. -/
def keysOf (m : List (ℕ × PHandle)) : List ℕ := m.map Prod.fst

/-- Python `_pmap[pid] = proc`: replace an existing binding or append. -/
def setPmap (m : List (ℕ × PHandle)) (p : ℕ) (h : PHandle) : List (ℕ × PHandle) :=
  if p ∈ keysOf m then m.map (fun e => if e.1 = p then (p, h) else e)
  else m ++ [(p, h)]

/-- Python `_pmap.pop(pid, None)`. -/
def removePmap (m : List (ℕ × PHandle)) (p : ℕ) : List (ℕ × PHandle) :=
  m.filter (fun e => decide (e.1 ≠ p))

/-- One iteration of the `for pid, proc in sorted(...)` loop of
`process_iter` (lines 1286-1304).  The entry carries the cached handle
(`some proc`) or `None` for a new pid.  Returns the handles yielded for this
entry (`none` in the list models Python yielding the `None` proc when a NEW
pid's construction raises `AccessDenied`), the updated `_pmap`, and the
updated allocation counter. -/
def handleEntry (w : World) (e : ℕ × Option PHandle) (m : List (ℕ × PHandle))
    (c : ℕ) : List (Option PHandle) × List (ℕ × PHandle) × ℕ :=
  match e.2 with
  | none =>
    match mkProcess w e.1 c with
    | .ok h => ([some h], setPmap m e.1 h, c + 1)
    | .error (.noSuchProcess _) => ([], removePmap m e.1, c)
    | .error (.accessDenied _) => ([none], m, c)
  | some proc =>
    match isRunningE w proc with
    | .ok (true, proc2) => ([some proc2], m, c)
    | .ok (false, proc2) =>
      match mkProcess w e.1 c with
      | .ok h => ([some h], setPmap m e.1 h, c + 1)
      | .error (.noSuchProcess _) => ([], removePmap m e.1, c)
      | .error (.accessDenied _) => ([some proc2], m, c)
    | .error (.noSuchProcess _) => ([], removePmap m e.1, c)
    | .error (.accessDenied _) => ([some proc], m, c)

/-- The whole `for` loop of `process_iter`, entry by entry. -/
def processEntries (w : World) :
    List (ℕ × Option PHandle) → List (ℕ × PHandle) → ℕ →
    List (Option PHandle) × List (ℕ × PHandle) × ℕ
  | [], m, c => ([], m, c)
  | e :: rest, m, c =>
    let r1 := handleEntry w e m c
    let r2 := processEntries w rest r1.2.1 r1.2.2
    (r1.1 ++ r2.1, r2.2.1, r2.2.2)

/-- Insertion step for the Python `sorted(...)` over (pid, proc) pairs:
pairs are compared by pid (the pid sets of the two operands are disjoint,
so the proc components are never compared). -/
def insortEntry (x : ℕ × Option PHandle) :
    List (ℕ × Option PHandle) → List (ℕ × Option PHandle)
  | [] => [x]
  | y :: ys => if x.1 ≤ y.1 then x :: y :: ys else y :: insortEntry x ys

/-- Python `sorted(...)` by pid (stable insertion sort). -/
def sortEntries : List (ℕ × Option PHandle) → List (ℕ × Option PHandle)
  | [] => []
  | x :: xs => insortEntry x (sortEntries xs)

/-- `gone_pids = b - a` of `process_iter`: cached pids no longer listed. -/
def gonePids (listing : List ℕ) (m0 : List (ℕ × PHandle)) : List ℕ :=
  (keysOf m0).filter (fun p => decide (p ∉ listing.dedup))

/-- The cache after `for pid in gone_pids: remove(pid)`. -/
def pmapPurged (listing : List ℕ) (m0 : List (ℕ × PHandle)) : List (ℕ × PHandle) :=
  m0.filter (fun e => decide (e.1 ∉ gonePids listing m0))

/-- `new_pids = a - b` of `process_iter`. -/
def newPids (listing : List ℕ) (m0 : List (ℕ × PHandle)) : List ℕ :=
  listing.dedup.filter (fun p => decide (p ∉ keysOf m0))

/-- `sorted(list(_pmap.items()) + list(dict.fromkeys(new_pids).items()))`:
cached entries carry their handle, new pids carry `None`. -/
def mergedEntries (listing : List ℕ) (m0 : List (ℕ × PHandle)) :
    List (ℕ × Option PHandle) :=
  sortEntries ((pmapPurged listing m0).map (fun e => (e.1, some e.2)) ++
    (newPids listing m0).map (fun p => (p, (none : Option PHandle))))

/-- `process_iter` (lines 1257-1304), one full enumeration pass over the
snapshot `listing` of `pids()`: returns the yielded sequence, the updated
`_pmap` cache, and the updated allocation counter. -/
def process_iter (listing : List ℕ) (w : World) (m0 : List (ℕ × PHandle))
    (c0 : ℕ) : List (Option PHandle) × List (ℕ × PHandle) × ℕ :=
  processEntries w (mergedEntries listing m0) (pmapPurged listing m0) c0

/-- What one pass yields for one pid, as a function of the pass's final cache:
a cached-or-created handle is yielded; a pid whose platform constructor
raises `AccessDenied` while uncached yields Python's `None`; a vanished pid
yields nothing. -/
def yieldOf (o : Option PHandle) (st : PStatus) : List (Option PHandle) :=
  match o, st with
  | some h, _ => [some h]
  | none, .deniedInit => [none]
  | none, _ => []

/-- The whole yielded sequence of a pass, key by key. -/
def yieldsSpec (w : World) (m : List (ℕ × PHandle)) : List ℕ → List (Option PHandle)
  | [] => []
  | p :: rest => yieldOf (alookup p m) (w.status p) ++ yieldsSpec w m rest

/-- Per-pid stability of a cache binding against the current world: a live
pid is bound to a handle carrying the live identity; a dead pid is unbound;
an `AccessDenied`-at-construction pid keeps whatever (possibly stale) binding
it has. -/
def StableAt (w : World) (p : ℕ) (o : Option PHandle) : Prop :=
  match w.status p, o with
  | .live ct, some h => h.pid = p ∧ h.identCt = ct ∧ h.gone = false
  | .live _, none => False
  | .dead, some _ => False
  | .dead, none => True
  | .deniedInit, _ => True

/-- Outcome of one `proc.wait(timeout)` poll inside `wait_procs`, combined
with the `proc.is_running()` consulted right after: the wait either raises
`TimeoutExpired`, or returns a returncode (possibly `None`) while
`is_running()` would report `running`. -/
inductive WaitOutcome where
  | timedOut
  | returned (rc : Option ℤ) (running : Bool)
deriving DecidableEq, Repr

/-- Environment of a `wait_procs` run: the outcome of the k-th `check_gone`
poll and the value of the k-th `_timer()` call. -/
structure WEnv where
  outcome : ℕ → WaitOutcome
  clock : ℕ → ℚ

/-- Observable events of a `wait_procs` run: a callback invocation, and the
removal of a handle from the alive set (the `alive = alive - gone` update). -/
inductive WEvent where
  | cb (p : ℕ)
  | moved (p : ℕ)
deriving DecidableEq, Repr

/-- State of a `wait_procs` run: the `gone` set (insertion order), the
`alive` set, the `returncode` attributes assigned so far, the event trace,
and the two oracle cursors. -/
structure WState where
  gone : List ℕ
  alive : List ℕ
  rcMap : List (ℕ × Option ℤ)
  trace : List WEvent
  wk : ℕ
  tk : ℕ
deriving DecidableEq, Repr

/-- Assignment `proc.returncode = returncode`. -/
def setRc (m : List (ℕ × Option ℤ)) (p : ℕ) (rc : Option ℤ) :
    List (ℕ × Option ℤ) :=
  if p ∈ m.map Prod.fst then m.map (fun e => if e.1 = p then (p, rc) else e)
  else m ++ [(p, rc)]

/-- Does this handle carry a `returncode` attribute? -/
def rcLookup (p : ℕ) : List (ℕ × Option ℤ) → Option (Option ℤ)
  | [] => none
  | e :: rest => if e.1 = p then some e.2 else rcLookup p rest

/-- `wait_procs.check_gone` (lines 1341-1351): poll one handle; on a
non-timeout wait whose returncode is set or whose `is_running()` is false,
assign `returncode`, add the handle to `gone`, and invoke the callback.  The
`gone.add` is a set insertion; the callback event is recorded in the trace. -/
def check_gone (env : WEnv) (cbGiven : Bool) (s : WState) (p : ℕ) : WState :=
  match env.outcome s.wk with
  | .timedOut => { s with wk := s.wk + 1 }
  | .returned rc running =>
    if rc.isSome || !running then
      { s with
        wk := s.wk + 1,
        rcMap := setRc s.rcMap p rc,
        gone := if p ∈ s.gone then s.gone else s.gone ++ [p],
        trace := s.trace ++ (if cbGiven then [.cb p] else []) }
    else { s with wk := s.wk + 1 }

/-- The `for proc in alive` sweep of `wait_procs` (lines 1366-1380): when a
deadline is set (`tog`), each iteration recomputes
`timeout = min(deadline - _timer(), 1 / len(alive))` and breaks out of the
sweep when it is non-positive; `n` is `len(alive)`, constant during the
sweep. -/
def sweep (env : WEnv) (cbGiven : Bool) (tog : Bool) (d : ℚ) (n : ℕ) :
    List ℕ → WState → ℚ → WState × ℚ
  | [], s, t => (s, t)
  | p :: rest, s, t =>
    let maxT : ℚ := 1 / (n : ℚ)
    if tog then
      let t2 := min (d - env.clock s.tk) maxT
      let s2 := { s with tk := s.tk + 1 }
      if t2 ≤ 0 then (s2, t2)
      else sweep env cbGiven tog d n rest (check_gone env cbGiven s2 p) t2
    else sweep env cbGiven tog d n rest (check_gone env cbGiven s p) t

/-- The `alive = alive - gone` update; one `moved` event is recorded per
handle leaving the alive set. -/
def subtractGone (s : WState) : WState :=
  { s with
    alive := s.alive.filter (fun p => decide (p ∉ s.gone)),
    trace := s.trace ++
      (s.alive.filter (fun p => decide (p ∈ s.gone))).map WEvent.moved }

/-- The `while alive` loop of `wait_procs` (lines 1363-1381), fuelled. -/
def wait_loop (env : WEnv) (cbGiven : Bool) (tog : Bool) (d : ℚ) :
    ℕ → WState → ℚ → Option (WState × ℚ)
  | 0, _, _ => none
  | fuel + 1, s, t =>
    if s.alive.isEmpty then some (s, t)
    else if tog = true ∧ t ≤ 0 then some (s, t)
    else
      let r := sweep env cbGiven tog d s.alive.length s.alive s t
      wait_loop env cbGiven tog d fuel (subtractGone r.1) r.2

/-- The last zero-timeout sweep over the stragglers (lines 1383-1388). -/
def final_sweep (env : WEnv) (cbGiven : Bool) (s : WState) : WState :=
  if s.alive.isEmpty then s
  else subtractGone (s.alive.foldl (check_gone env cbGiven) s)

/-- `wait_procs` (lines 1307-1390): validate the timeout, set the deadline
when one is given, run the polling loop and the final sweep.  `.error ()`
models the eager `ValueError` on a negative timeout; `.ok none` means the
fuel was insufficient to finish the run. -/
def wait_procs (env : WEnv) (cbGiven : Bool) (procs : List ℕ)
    (timeout : Option ℚ) (fuel : ℕ) : Except Unit (Option WState) :=
  match timeout with
  | some t =>
    if ¬ (0 ≤ t) then .error ()
    else
      let d := env.clock 0 + t
      match wait_loop env cbGiven true d fuel ⟨[], procs.dedup, [], [], 0, 1⟩ t with
      | none => .ok none
      | some (s1, _) => .ok (some (final_sweep env cbGiven s1))
  | none =>
    match wait_loop env cbGiven false 0 fuel ⟨[], procs.dedup, [], [], 0, 0⟩ 0 with
    | none => .ok none
    | some (s1, _) => .ok (some (final_sweep env cbGiven s1))

/-- The run invariant of `wait_procs`: the two sets are duplicate-free and
cover exactly the (deduplicated) input; every gone handle has a `returncode`
attribute; the callback has fired exactly once for every gone handle and
never otherwise; one `moved` event exists exactly for the handles that have
completed the move out of `alive`; and (when a callback is given) every
`moved` event is preceded by the corresponding callback event. -/
structure WInv (procs : List ℕ) (cbGiven : Bool) (s : WState) : Prop where
  aliveNd : s.alive.Nodup
  goneNd : s.gone.Nodup
  cover : ∀ p, (p ∈ s.gone ∨ p ∈ s.alive) ↔ p ∈ procs.dedup
  rcSet : ∀ p ∈ s.gone, (rcLookup p s.rcMap).isSome = true
  cbCount : ∀ p, s.trace.count (.cb p) =
    if p ∈ s.gone ∧ cbGiven = true then 1 else 0
  movedCount : ∀ p, s.trace.count (.moved p) =
    if p ∈ s.gone ∧ p ∉ s.alive then 1 else 0
  cbBeforeMoved : cbGiven = true → ∀ p j, s.trace.get? j = some (.moved p) →
    ∃ i, i < j ∧ s.trace.get? i = some (.cb p)

/-- Concrete environment for the C5 witness run: every poll reports an exited
process (returncode 0). -/
def wEnvW : WEnv := ⟨fun _ => .returned (some 0) false, fun _ => 0⟩

/-- Final state of the C5 witness run `wait_procs wEnvW true [1, 2] none 2`. -/
def sW : WState :=
  ⟨[1, 2], [], [(1, some 0), (2, some 0)], [.cb 1, .cb 2, .moved 1, .moved 2], 2, 0⟩

/-- Final state of the C6 witness run `wait_procs wEnvW true [3] none 2`. -/
def sW6 : WState := ⟨[3], [], [(3, some 0)], [.cb 3, .moved 3], 1, 0⟩

/-- Concrete world for the C8 witness run: pids 1 and 2 live. -/
def wIterW : World :=
  ⟨fun p => if p = 1 then .live (some 10) else if p = 2 then .live (some 20)
    else .dead, fun _ => none⟩


end Psutil

namespace Psutil

theorem round1_zero : round1 0 = 0 := by
  norm_num [round1, pyRound]

theorem field_percent_nonwindows (all_delta field_delta : ℚ) :
    field_percent false all_delta field_delta = spec_field_percent all_delta field_delta := by
  by_cases h : all_delta = 0 <;>
    simp [field_percent, spec_field_percent, clampField, h, round1_zero]

/-- C9: `cpu_times_percent.calculate` computes, independently for each field,
`round((100 * field_delta) / total_delta, 1)` with `0.0` substituted when the
total delta is zero; the `[0, 100]` clamp is applied only on Windows; on the
synthetic sample pair with user delta 5, idle delta 95 and all other deltas 0
the user field is 5.0 and the idle field is 95.0. -/
theorem c9_cpu_times_percent_fields :
    (∀ t1 t2 : SCpuTimes,
      cpu_times_percent_calculate false t1 t2 =
        ⟨spec_field_percent (sumTimes t2 - sumTimes t1) (t2.user - t1.user),
         spec_field_percent (sumTimes t2 - sumTimes t1) (t2.system - t1.system),
         spec_field_percent (sumTimes t2 - sumTimes t1) (t2.idle - t1.idle)⟩) ∧
    cpu_times_percent_calculate false ⟨0, 0, 0⟩ ⟨5, 0, 95⟩ = ⟨5, 0, 95⟩ ∧
    cpu_times_percent_calculate true ⟨1, 0, 0⟩ ⟨0, 0, 2⟩ = ⟨0, 0, 100⟩ ∧
    cpu_times_percent_calculate false ⟨1, 0, 0⟩ ⟨0, 0, 2⟩ = ⟨-100, 0, 200⟩ := by
  refine ⟨fun t1 t2 => ?_, ?_, ?_, ?_⟩
  · simp [cpu_times_percent_calculate, field_percent_nonwindows]
  · simp only [cpu_times_percent_calculate, field_percent, clampField, sumTimes,
      round1, pyRound]
    norm_num
  · simp only [cpu_times_percent_calculate, field_percent, clampField, sumTimes,
      round1, pyRound]
    norm_num
  · simp only [cpu_times_percent_calculate, field_percent, clampField, sumTimes,
      round1, pyRound]
    norm_num

/-- C3 counterexample: the module-level `cpu_percent`, called non-blocking for
the first time in a session, compares against the sample taken at module
import; when CPU load occurred since import (here: busy delta 5, total delta
10) it returns 50.0, not 0.0. -/
theorem c3_counterexample :
    (cpu_percent_nonblocking ⟨0, 0, 0⟩ ⟨5, 0, 5⟩).1 = .ok 50 ∧ (50 : ℚ) ≠ 0 := by
  constructor
  · simp only [cpu_percent_nonblocking, cpu_percent_calculate, sumTimes,
      round1, pyRound]
    norm_num
  · norm_num

/-- C3 (amended): `Process.cpu_percent`'s first non-blocking call (empty sample
slots) returns exactly 0.0 and stores the current sample; the module-level
`cpu_percent`'s first non-blocking call computes a delta against the
import-time sample, stores the current sample, and returns 0.0 only when the
busy delta since import is non-positive. -/
theorem c3_first_call_amended :
    (∀ (st2 : ℚ) (pt2 : PCpuTimes) (n : ℕ),
      cpu_percent_process ⟨none, none⟩ st2 pt2 n = (0, ⟨some st2, some pt2⟩)) ∧
    (∀ imp cur : SCpuTimes,
      (cpu_percent_nonblocking imp cur).2 = cur ∧
      (sumTimes cur - cur.idle ≤ sumTimes imp - imp.idle →
        (cpu_percent_nonblocking imp cur).1 = .ok 0)) := by
  refine ⟨fun st2 pt2 n => rfl, fun imp cur => ⟨rfl, fun h => ?_⟩⟩
  simp [cpu_percent_nonblocking, cpu_percent_calculate, h]

theorem c3_first_call_witness :
    cpu_percent_process ⟨none, none⟩ 7 ⟨1, 2⟩ 4 = (0, ⟨some 7, some ⟨1, 2⟩⟩) ∧
    (cpu_percent_nonblocking ⟨2, 0, 0⟩ ⟨1, 0, 9⟩).1 = .ok 0 :=
  ⟨c3_first_call_amended.1 7 ⟨1, 2⟩ 4,
   (c3_first_call_amended.2 ⟨2, 0, 0⟩ ⟨1, 0, 9⟩).2 (by norm_num [sumTimes])⟩

/-- C4 counterexample: a negative wall-time delta in `Process.cpu_percent`
(last sample 1, current sample 0, process busy delta 1) yields -100.0, not
0.0; and the module-level `cpu_percent.calculate` propagates
`ZeroDivisionError` when the total delta is zero while the busy delta is
positive. -/
theorem c4_counterexample :
    (cpu_percent_process ⟨some 1, some ⟨0, 0⟩⟩ 0 ⟨1, 0⟩ 1).1 = -100 ∧
    (-100 : ℚ) ≠ 0 ∧
    cpu_percent_calculate ⟨1, 0, 1⟩ ⟨2, 0, 0⟩ = .error () := by
  refine ⟨?_, by norm_num, ?_⟩
  · simp only [cpu_percent_process, round1, pyRound]
    norm_num
  · simp only [cpu_percent_calculate, sumTimes]
    norm_num

/-- C4 (amended): the zero-delta protections that do hold: `Process.cpu_percent`
returns 0.0 when the time delta is exactly zero (the `ZeroDivisionError` is
caught); `cpu_times_percent.calculate` yields 0.0 for every field when the
total delta is zero; the module-level `cpu_percent.calculate` returns 0.0
whenever the busy delta is non-positive.  (A negative time delta and an
uncaught zero total delta in the module-level calculate are NOT protected,
see the counterexample.) -/
theorem c4_zero_delta_amended :
    (∀ (st1 : ℚ) (pt1 pt2 : PCpuTimes) (n : ℕ),
      (cpu_percent_process ⟨some st1, some pt1⟩ st1 pt2 n).1 = 0) ∧
    (∀ (w : Bool) (t1 t2 : SCpuTimes), sumTimes t2 = sumTimes t1 →
      cpu_times_percent_calculate w t1 t2 = ⟨0, 0, 0⟩) ∧
    (∀ t1 t2 : SCpuTimes, sumTimes t2 - t2.idle ≤ sumTimes t1 - t1.idle →
      cpu_percent_calculate t1 t2 = .ok 0) := by
  refine ⟨fun st1 pt1 pt2 n => ?_, fun w t1 t2 h => ?_, fun t1 t2 h => ?_⟩
  · simp [cpu_percent_process]
  · have hz : sumTimes t2 - sumTimes t1 = 0 := by rw [h]; ring
    have hf : ∀ fd : ℚ, field_percent w 0 fd = 0 := by
      intro fd
      simp [field_percent, round1_zero, clampField]
    simp [cpu_times_percent_calculate, hz, hf]
  · simp [cpu_percent_calculate, h]

theorem c4_zero_delta_witness :
    (cpu_percent_process ⟨some 3, some ⟨0, 0⟩⟩ 3 ⟨9, 9⟩ 2).1 = 0 ∧
    cpu_times_percent_calculate true ⟨1, 2, 3⟩ ⟨2, 1, 3⟩ = ⟨0, 0, 0⟩ ∧
    cpu_percent_calculate ⟨0, 0, 0⟩ ⟨0, 0, 7⟩ = .ok 0 :=
  ⟨c4_zero_delta_amended.1 3 ⟨0, 0⟩ ⟨9, 9⟩ 2,
   c4_zero_delta_amended.2.1 true ⟨1, 2, 3⟩ ⟨2, 1, 3⟩ (by norm_num [sumTimes]),
   c4_zero_delta_amended.2.2 ⟨0, 0, 0⟩ ⟨0, 0, 7⟩ (by norm_num [sumTimes])⟩

/-- C10: for every negative pid, `pid_exists` returns `False` immediately and
performs zero provider calls, on every platform. -/
theorem c10_pid_exists_negative (posix : Bool) (prov : PidProvider) (pid : ℤ)
    (h : pid < 0) : pid_exists posix prov pid = (false, 0) := by
  simp [pid_exists, h]

theorem c10_pid_exists_negative_witness :
    pid_exists true ⟨[1, 2], fun _ => true⟩ (-3) = (false, 0) :=
  c10_pid_exists_negative true ⟨[1, 2], fun _ => true⟩ (-3) (by norm_num)

/-- C1: on a handle whose `is_running()` is false (PID 5 reused by a process
with creation time 200 instead of the cached 100), the ionice-set, rlimit-set
and cpu_affinity-set operations are forwarded to the provider and act on the
reused PID, and `parent()` answers from the reused process's lineage — no
`NoSuchProcess` is raised, although the class docstring lists all four among
the identity-guarded operations.  The decorated operations (`send_signal`
via `guardedSignal`) and the inline-guarded `nice` set do raise. -/
theorem c1_unguarded_ops_act_on_reused_pid :
    isRunningE wC1 hC1 = .ok (false, hC1) ∧
    ionice wC1 hC1 1 2 = (.ok (.ioniceSet 5 1 2), hC1) ∧
    rlimit wC1 hC1 7 1 2 = (.ok (.rlimitSet 5 7 1 2), hC1) ∧
    cpu_affinity wC1 hC1 [0] = (.ok (.affinitySet 5 [0]), hC1) ∧
    parent wC1 hC1 = .ok (some ⟨3, some 50, false, 0⟩) ∧
    send_signal wC1 hC1 15 = (.error (.noSuchProcess 5), hC1) ∧
    nice wC1 hC1 4 = (.error (.noSuchProcess 5), hC1) :=
  ⟨rfl, rfl, rfl, rfl, rfl, rfl, rfl⟩

/-- C2 counterexample: after an identity check fails by mismatch (pid 5 live
with creation time 200 ≠ cached 100 — `is_running()` returns false), the
`_gone` flag is NOT set, and a later check against a world where pid 5 again
carries creation time 100 returns true: the handle is revived. -/
theorem c2_counterexample :
    isRunningE wC2a hC2 = .ok (false, hC2) ∧
    isRunningE wC2b hC2 = .ok (true, hC2) :=
  ⟨rfl, rfl⟩

/-- C2 (amended): the `gone` state is sticky exactly for the not-found
failures: once `_gone` is set, `is_running` returns false against every
world; `is_running` sets `_gone` when the pid cannot be found
(`NoSuchProcess`), and `_send_signal` sets it on `ESRCH`; but an
identity-mismatch failure (pid found with a different creation time) returns
false WITHOUT setting `_gone`, leaving the handle revivable. -/
theorem c2_gone_sticky_amended :
    (∀ (w : World) (h : PHandle), h.gone = true → isRunningE w h = .ok (false, h)) ∧
    (∀ (w : World) (h : PHandle), h.gone = false → w.status h.pid = .dead →
      isRunningE w h = .ok (false, { h with gone := true })) ∧
    (∀ (w : World) (h : PHandle) (ct : Option ℚ), h.gone = false →
      w.status h.pid = .live ct →
      isRunningE w h = .ok (decide (h.identCt = ct), h)) ∧
    (∀ (w : World) (h : PHandle) (sig : ℤ), w.status h.pid = .dead →
      _send_signal w h sig = (.error (.noSuchProcess h.pid), { h with gone := true })) := by
  refine ⟨fun w h hg => ?_, fun w h hg hs => ?_, fun w h ct hg hs => ?_,
    fun w h sig hs => ?_⟩
  · simp [isRunningE, hg]
  · simp [isRunningE, hg, mkProcess, hs]
  · simp [isRunningE, hg, mkProcess, hs]
  · simp [_send_signal, hs]

theorem tableLookup_pid_mem_all (table : List (ℕ × List CHandle)) (pid : ℕ) :
    ∀ ch ∈ tableLookup table pid, ch.pid ∈ allChildPids table := by
  induction table with
  | nil => intro ch hch; simp [tableLookup] at hch
  | cons e rest ih =>
    intro ch hch
    simp only [tableLookup] at hch
    by_cases he : e.1 = pid
    · rw [if_pos he] at hch
      simp only [allChildPids, List.mem_append]
      exact Or.inl (List.mem_map_of_mem CHandle.pid hch)
    · rw [if_neg he] at hch
      simp only [allChildPids, List.mem_append]
      exact Or.inr (ih ch hch)

theorem foldl_childStep_spec (rootCt : ℚ) (U : Finset ℕ)
    (children : List CHandle) :
    ∀ acc : List CHandle × List ℕ,
      (∀ ch ∈ children, ch.pid ∈ U) → acc.2.Nodup → (∀ p ∈ acc.2, p ∈ U) →
      (∀ ch ∈ acc.1, ∃ c, ch.ct = some c ∧ rootCt ≤ c) →
      ((children.foldl (childStep rootCt) acc).2.Nodup ∧
       (∀ p ∈ (children.foldl (childStep rootCt) acc).2, p ∈ U) ∧
       (∀ ch ∈ (children.foldl (childStep rootCt) acc).1,
         ∃ c, ch.ct = some c ∧ rootCt ≤ c) ∧
       acc.2.length ≤ (children.foldl (childStep rootCt) acc).2.length) := by
  induction children with
  | nil => intro acc _ h2 h3 h4; exact ⟨h2, h3, h4, le_refl _⟩
  | cons ch rest ih =>
    intro acc hChU h2 h3 h4
    simp only [List.foldl_cons]
    have hstep : (childStep rootCt acc ch).2.Nodup ∧
        (∀ p ∈ (childStep rootCt acc ch).2, p ∈ U) ∧
        (∀ c2 ∈ (childStep rootCt acc ch).1, ∃ c, c2.ct = some c ∧ rootCt ≤ c) ∧
        acc.2.length ≤ (childStep rootCt acc ch).2.length := by
      rcases hct : ch.ct with _ | c
      · simp only [childStep, hct]
        exact ⟨h2, h3, h4, le_refl _⟩
      · simp only [childStep, hct]
        by_cases hin : rootCt ≤ c
        · rw [if_pos hin]
          by_cases hmem : ch.pid ∈ acc.2
          · rw [if_pos hmem]
            refine ⟨h2, h3, fun c2 hc2 => ?_, le_refl _⟩
            rcases List.mem_append.1 hc2 with hl | hr
            · exact h4 c2 hl
            · rcases List.mem_singleton.1 hr with rfl
              exact ⟨c, hct, hin⟩
          · rw [if_neg hmem]
            refine ⟨?_, ?_, fun c2 hc2 => ?_, ?_⟩
            · exact List.Nodup.append h2 (List.nodup_singleton _)
                (by simpa using fun hx => hmem hx)
            · intro p hp
              rcases List.mem_append.1 hp with hl | hr
              · exact h3 p hl
              · rcases List.mem_singleton.1 hr with rfl
                exact hChU ch (List.mem_cons_self _ _)
            · rcases List.mem_append.1 hc2 with hl | hr
              · exact h4 c2 hl
              · rcases List.mem_singleton.1 hr with rfl
                exact ⟨c, hct, hin⟩
            · simp
        · rw [if_neg hin]; exact ⟨h2, h3, h4, le_refl _⟩
    have := ih (childStep rootCt acc ch)
      (fun c2 hc2 => hChU c2 (List.mem_cons_of_mem _ hc2))
      hstep.1 hstep.2.1 hstep.2.2.1
    exact ⟨this.1, this.2.1, this.2.2.1, le_trans hstep.2.2.2 this.2.2.2⟩

theorem children_recursive_spec (table : List (ℕ × List CHandle)) (rootCt : ℚ)
    (U : Finset ℕ)
    (hClose : ∀ pid, ∀ ch ∈ tableLookup table pid, ch.pid ∈ U) :
    ∀ (fuel i : ℕ) (cps : List ℕ) (ret : List CHandle),
      cps.Nodup → (∀ p ∈ cps, p ∈ U) →
      (∀ ch ∈ ret, ∃ c, ch.ct = some c ∧ rootCt ≤ c) →
      i ≤ cps.length → U.card + 1 ≤ fuel + i →
      ∃ ret2 cps2,
        children_recursive table rootCt fuel cps i ret = some (ret2, cps2) ∧
        cps2.Nodup ∧ (∀ ch ∈ ret2, ∃ c, ch.ct = some c ∧ rootCt ≤ c) := by
  intro fuel
  induction fuel with
  | zero =>
    intro i cps ret hnd hsub _ hile hbound
    exfalso
    have hlen : cps.length ≤ U.card := by
      have h1 : cps.toFinset.card = cps.length := List.toFinset_card_of_nodup hnd
      have h2 : cps.toFinset ⊆ U := by
        intro p hp
        exact hsub p (List.mem_toFinset.1 hp)
      have := Finset.card_le_card h2
      omega
    omega
  | succ fuel ih =>
    intro i cps ret hnd hsub hret hile hbound
    by_cases hlt : i < cps.length
    · have hChU : ∀ ch ∈ tableLookup table (cps.get ⟨i, hlt⟩), ch.pid ∈ U :=
        fun ch hch => hClose _ ch hch
      have hfold := foldl_childStep_spec rootCt U
        (tableLookup table (cps.get ⟨i, hlt⟩)) (ret, cps) hChU hnd hsub hret
      have hrec := ih (i + 1)
        ((tableLookup table (cps.get ⟨i, hlt⟩)).foldl (childStep rootCt) (ret, cps)).2
        ((tableLookup table (cps.get ⟨i, hlt⟩)).foldl (childStep rootCt) (ret, cps)).1
        hfold.1 hfold.2.1 hfold.2.2.1
        (by
          have h5 : cps.length ≤
              ((tableLookup table (cps.get ⟨i, hlt⟩)).foldl (childStep rootCt)
                (ret, cps)).2.length := hfold.2.2.2
          omega)
        (by omega)
      rcases hrec with ⟨ret2, cps2, heq, hnd2, hret2⟩
      refine ⟨ret2, cps2, ?_, hnd2, hret2⟩
      simp only [children_recursive, dif_pos hlt]
      exact heq
    · refine ⟨ret, cps, ?_, hnd, hret⟩
      simp only [children_recursive, dif_neg hlt]

/-- C7: the breadth-first walk of `children(recursive=True)` terminates with
the fuel bound `|universe| + 1` even on arbitrary (cyclic or inconsistent)
parent/child tables, the final `checkpids` list is duplicate-free (each PID
is expanded at most once), and every returned handle has a creation time
greater than or equal to the creation time of the original root `self` — the
filter compares against the root's `rootCt`, never against the immediate
parent in the path. -/
theorem c7_children_recursive_root_filter (table : List (ℕ × List CHandle))
    (rootPid : ℕ) (rootCt : ℚ) :
    ∃ ret cps, children_rec table rootPid rootCt = some (ret, cps) ∧
      cps.Nodup ∧ (∀ ch ∈ ret, ∃ c, ch.ct = some c ∧ rootCt ≤ c) := by
  have hClose : ∀ pid, ∀ ch ∈ tableLookup table pid,
      ch.pid ∈ childUniverse table rootPid := by
    intro pid ch hch
    have := tableLookup_pid_mem_all table pid ch hch
    simp only [childUniverse, Finset.mem_insert, List.mem_toFinset]
    exact Or.inr this
  have hroot : ∀ p ∈ [rootPid], p ∈ childUniverse table rootPid := by
    intro p hp
    rcases List.mem_singleton.1 hp with rfl
    simp [childUniverse]
  rcases children_recursive_spec table rootCt (childUniverse table rootPid) hClose
      ((childUniverse table rootPid).card + 1) 0 [rootPid] []
      (List.nodup_singleton _) hroot (by simp) (by simp) (by omega) with
    ⟨ret2, cps2, heq, hnd, hret⟩
  exact ⟨ret2, cps2, heq, hnd, hret⟩

theorem alookup_mem : ∀ {m : List (ℕ × PHandle)} {p : ℕ} {h : PHandle},
    alookup p m = some h → (p, h) ∈ m := by
  intro m
  induction m with
  | nil => intro p h hl; simp [alookup] at hl
  | cons e rest ih =>
    intro p h hl
    rcases e with ⟨a, b⟩
    simp only [alookup] at hl
    by_cases he : a = p
    · subst he
      rw [if_pos rfl] at hl
      injection hl with hb
      subst hb
      exact List.mem_cons_self _ _
    · rw [if_neg he] at hl
      exact List.mem_cons_of_mem _ (ih hl)

theorem mem_keys_of_alookup {m : List (ℕ × PHandle)} {p : ℕ} {h : PHandle}
    (hl : alookup p m = some h) : p ∈ keysOf m :=
  List.mem_map.2 ⟨(p, h), alookup_mem hl, rfl⟩

theorem alookup_none_of_not_mem_keys : ∀ {m : List (ℕ × PHandle)} {p : ℕ},
    p ∉ keysOf m → alookup p m = none := by
  intro m
  induction m with
  | nil => intro p _; rfl
  | cons e rest ih =>
    intro p hp
    simp only [keysOf, List.map_cons, List.mem_cons] at hp
    push_neg at hp
    simp only [alookup, if_neg (Ne.symm hp.1)]
    exact ih (by simpa [keysOf] using hp.2)

theorem alookup_of_mem_nodup : ∀ {m : List (ℕ × PHandle)} {p : ℕ} {h : PHandle},
    (keysOf m).Nodup → (p, h) ∈ m → alookup p m = some h := by
  intro m
  induction m with
  | nil => intro p h _ hm; simp at hm
  | cons e rest ih =>
    intro p h hnd hm
    rcases List.nodup_cons.1 (show (e.1 :: keysOf rest).Nodup from hnd) with
      ⟨hhead, htail⟩
    rcases List.mem_cons.1 hm with heq | hmem
    · rw [← heq]
      simp [alookup]
    · have hp : p ∈ keysOf rest := List.mem_map.2 ⟨(p, h), hmem, rfl⟩
      have hne : e.1 ≠ p := by
        intro hcon
        rw [hcon] at hhead
        exact hhead hp
      simp only [alookup, if_neg hne]
      exact ih htail hmem

theorem alookup_setPmap_self : ∀ (m : List (ℕ × PHandle)) (p : ℕ) (h : PHandle),
    alookup p (setPmap m p h) = some h := by
  intro m p h
  by_cases hmem : p ∈ keysOf m
  · rw [setPmap, if_pos hmem]
    induction m with
    | nil => simp [keysOf] at hmem
    | cons e rest ih =>
      by_cases he : e.1 = p
      · simp [alookup, he]
      · have hrest : p ∈ keysOf rest := by
          rcases List.mem_cons.1 (show p ∈ e.1 :: keysOf rest from hmem) with hc | hc
          · exact absurd hc.symm he
          · exact hc
        simp only [List.map_cons, if_neg he, alookup, if_neg he]
        exact ih hrest
  · rw [setPmap, if_neg hmem]
    induction m with
    | nil => simp [alookup]
    | cons e rest ih =>
      have hne : e.1 ≠ p := by
        intro hcon
        exact hmem (by
          rw [← hcon]
          exact List.mem_cons_self _ _)
      have hrest : p ∉ keysOf rest := by
        intro hcon
        exact hmem (List.mem_cons_of_mem _ hcon)
      simp only [List.cons_append, alookup, if_neg hne]
      exact ih hrest

theorem alookup_setPmap_other (m : List (ℕ × PHandle)) (p : ℕ) (h : PHandle)
    (q : ℕ) (hq : q ≠ p) : alookup q (setPmap m p h) = alookup q m := by
  by_cases hmem : p ∈ keysOf m
  · rw [setPmap, if_pos hmem]
    clear hmem
    induction m with
    | nil => rfl
    | cons e rest ih =>
      by_cases he : e.1 = p
      · have hne : ¬ ((p, h).1 = q) := fun hc => hq hc.symm
        have hne2 : ¬ (e.1 = q) := fun hc => hq (he ▸ hc).symm
        simp only [List.map_cons, if_pos he, alookup, if_neg hne, if_neg hne2]
        exact ih
      · by_cases heq : e.1 = q
        · have hfe : (if e.1 = p then (p, h) else e) = e := if_neg he
          simp only [List.map_cons, hfe, alookup, if_pos heq]
        · simp only [List.map_cons, if_neg he, alookup, if_neg heq]
          exact ih
  · rw [setPmap, if_neg hmem]
    induction m with
    | nil => simp [alookup, if_neg (fun hc => hq hc.symm : ¬ (p = q))]
    | cons e rest ih =>
      have hrest : p ∉ keysOf rest := by
        intro hcon
        exact hmem (List.mem_cons_of_mem _ hcon)
      by_cases heq : e.1 = q
      · simp [alookup, heq]
      · simp only [List.cons_append, alookup, if_neg heq]
        exact ih hrest

theorem alookup_removePmap_self (m : List (ℕ × PHandle)) (p : ℕ) :
    alookup p (removePmap m p) = none := by
  induction m with
  | nil => rfl
  | cons e rest ih =>
    rw [removePmap, List.filter_cons]
    by_cases he : e.1 = p
    · rw [if_neg (by simp [he])]
      exact ih
    · rw [if_pos (by simp [he])]
      simp only [alookup, if_neg he]
      exact ih

theorem alookup_removePmap_other (m : List (ℕ × PHandle)) (p q : ℕ)
    (hq : q ≠ p) : alookup q (removePmap m p) = alookup q m := by
  induction m with
  | nil => rfl
  | cons e rest ih =>
    rw [removePmap, List.filter_cons]
    by_cases he : e.1 = p
    · rw [if_neg (by simp [he])]
      have hne : ¬ (e.1 = q) := by
        rw [he]
        exact fun hc => hq hc.symm
      rw [show alookup q (e :: rest) = alookup q rest from by
        simp [alookup, if_neg hne]]
      exact ih
    · rw [if_pos (by simp [he])]
      by_cases heq : e.1 = q
      · simp only [alookup, if_pos heq]
      · simp only [alookup, if_neg heq]
        exact ih

theorem alookup_filter_keep (pred : ℕ → Bool) :
    ∀ (m : List (ℕ × PHandle)) (p : ℕ), pred p = true →
    alookup p (m.filter (fun e => pred e.1)) = alookup p m := by
  intro m
  induction m with
  | nil => intro p _; rfl
  | cons e rest ih =>
    intro p hp
    by_cases hpe : pred e.1 = true
    · rw [List.filter_cons, if_pos hpe]
      by_cases he : e.1 = p
      · simp [alookup, he]
      · simp only [alookup, if_neg he]
        exact ih p hp
    · have he : e.1 ≠ p := fun hc => hpe (hc ▸ hp)
      rw [List.filter_cons, if_neg hpe]
      rw [show alookup p (e :: rest) = alookup p rest from by
        simp [alookup, if_neg he]]
      exact ih p hp

theorem keysOf_filter_nodup {pred : (ℕ × PHandle) → Bool}
    {m : List (ℕ × PHandle)} (hnd : (keysOf m).Nodup) :
    (keysOf (m.filter pred)).Nodup := by
  have hs : (m.filter pred).Sublist m := List.filter_sublist m
  exact ((hs.map Prod.fst)).nodup hnd

theorem keysOf_setPmap_nodup {m : List (ℕ × PHandle)} (p : ℕ) (h : PHandle)
    (hnd : (keysOf m).Nodup) : (keysOf (setPmap m p h)).Nodup := by
  by_cases hmem : p ∈ keysOf m
  · rw [setPmap, if_pos hmem]
    have hkeys : keysOf (m.map (fun e => if e.1 = p then (p, h) else e)) = keysOf m := by
      simp only [keysOf, List.map_map]
      congr 1
      funext e
      by_cases he : e.1 = p <;> simp [he]
    rw [hkeys]
    exact hnd
  · rw [setPmap, if_neg hmem]
    have : keysOf (m ++ [(p, h)]) = keysOf m ++ [p] := by simp [keysOf]
    rw [this]
    simpa [List.nodup_append] using ⟨hnd, fun hc => hmem hc⟩

theorem wf_setPmap {m : List (ℕ × PHandle)} {p : ℕ} {h : PHandle}
    (hwf : ∀ e ∈ m, e.2.pid = e.1) (hh : h.pid = p) :
    ∀ e ∈ setPmap m p h, e.2.pid = e.1 := by
  intro e he
  by_cases hmem : p ∈ keysOf m
  · rw [setPmap, if_pos hmem] at he
    rcases List.mem_map.1 he with ⟨e0, he0, heq⟩
    by_cases h0 : e0.1 = p
    · rw [if_pos h0] at heq
      rw [← heq]
      exact hh
    · rw [if_neg h0] at heq
      rw [← heq]
      exact hwf e0 he0
  · rw [setPmap, if_neg hmem] at he
    rcases List.mem_append.1 he with hl | hr
    · exact hwf e hl
    · rcases List.mem_singleton.1 hr with rfl
      exact hh

theorem wf_removePmap {m : List (ℕ × PHandle)} {p : ℕ}
    (hwf : ∀ e ∈ m, e.2.pid = e.1) :
    ∀ e ∈ removePmap m p, e.2.pid = e.1 :=
  fun e he => hwf e (List.mem_of_mem_filter he)

theorem keysOf_removePmap_nodup {m : List (ℕ × PHandle)} (p : ℕ)
    (hnd : (keysOf m).Nodup) : (keysOf (removePmap m p)).Nodup :=
  keysOf_filter_nodup hnd

theorem insortEntry_perm (x : ℕ × Option PHandle) :
    ∀ l : List (ℕ × Option PHandle), List.Perm (insortEntry x l) (x :: l) := by
  intro l
  induction l with
  | nil => exact List.Perm.refl _
  | cons y ys ih =>
    by_cases hle : x.1 ≤ y.1
    · rw [insortEntry, if_pos hle]
    · rw [insortEntry, if_neg hle]
      exact List.Perm.trans (ih.cons y) (List.Perm.swap x y ys)

theorem sortEntries_perm : ∀ l : List (ℕ × Option PHandle),
    List.Perm (sortEntries l) l := by
  intro l
  induction l with
  | nil => exact List.Perm.refl _
  | cons x xs ih =>
    exact List.Perm.trans (insortEntry_perm x (sortEntries xs)) (ih.cons x)

theorem insortEntry_sorted (x : ℕ × Option PHandle) :
    ∀ {l : List (ℕ × Option PHandle)},
    l.Pairwise (fun u v => u.1 ≤ v.1) →
    (insortEntry x l).Pairwise (fun u v => u.1 ≤ v.1) := by
  intro l
  induction l with
  | nil => intro _; simp [insortEntry]
  | cons y ys ih =>
    intro hp
    rcases List.pairwise_cons.1 hp with ⟨hy, hys⟩
    by_cases hle : x.1 ≤ y.1
    · rw [insortEntry, if_pos hle]
      refine List.pairwise_cons.2 ⟨?_, hp⟩
      intro v hv
      rcases List.mem_cons.1 hv with rfl | hv2
      · exact hle
      · exact le_trans hle (hy v hv2)
    · rw [insortEntry, if_neg hle]
      refine List.pairwise_cons.2 ⟨?_, ih hys⟩
      intro v hv
      have hv3 := (insortEntry_perm x ys).mem_iff.1 hv
      rcases List.mem_cons.1 hv3 with rfl | hv4
      · exact le_of_not_le hle
      · exact hy v hv4

theorem sortEntries_sorted : ∀ l : List (ℕ × Option PHandle),
    (sortEntries l).Pairwise (fun u v => u.1 ≤ v.1) := by
  intro l
  induction l with
  | nil => simp [sortEntries]
  | cons x xs ih => exact insortEntry_sorted x ih

theorem handleEntry_spec (w : World) (p : ℕ) (eo : Option PHandle)
    (m : List (ℕ × PHandle)) (c : ℕ)
    (hnd : (keysOf m).Nodup) (hwf : ∀ x ∈ m, x.2.pid = x.1)
    (hem : alookup p m = eo) :
    (keysOf (handleEntry w (p, eo) m c).2.1).Nodup ∧
    (∀ x ∈ (handleEntry w (p, eo) m c).2.1, x.2.pid = x.1) ∧
    (∀ q, q ≠ p → alookup q (handleEntry w (p, eo) m c).2.1 = alookup q m) ∧
    StableAt w p (alookup p (handleEntry w (p, eo) m c).2.1) ∧
    (handleEntry w (p, eo) m c).1 =
      yieldOf (alookup p (handleEntry w (p, eo) m c).2.1) (w.status p) ∧
    (∀ h0, eo = some h0 → isRunningE w h0 = .ok (true, h0) →
      alookup p (handleEntry w (p, eo) m c).2.1 = some h0) ∧
    (StableAt w p eo → alookup p (handleEntry w (p, eo) m c).2.1 = eo) := by
  rcases eo with _ | proc
  · -- new pid: entry carries None
    rcases hst : w.status p with _ | _ | ct
    · -- dead: construction raises NoSuchProcess, pid removed
      have hh : handleEntry w (p, none) m c = ([], removePmap m p, c) := by
        simp [handleEntry, mkProcess, hst]
      rw [hh]
      refine ⟨keysOf_removePmap_nodup p hnd, wf_removePmap hwf, ?_, ?_, ?_, ?_, ?_⟩
      · intro q hq
        exact alookup_removePmap_other m p q hq
      · rw [alookup_removePmap_self]
        simp [StableAt, hst]
      · rw [alookup_removePmap_self]
        simp [yieldOf, hst]
      · intro h0 hh0
        simp at hh0
      · intro _
        exact alookup_removePmap_self m p
    · -- deniedInit: Python yields the None proc
      have hh : handleEntry w (p, none) m c = ([none], m, c) := by
        simp [handleEntry, mkProcess, hst]
      rw [hh]
      refine ⟨hnd, hwf, fun q _ => rfl, ?_, ?_, ?_, fun _ => hem⟩
      · simp [StableAt, hst]
      · rw [hem]
        simp [yieldOf, hst]
      · intro h0 hh0
        simp at hh0
    · -- live: construct, cache and yield a fresh handle
      have hh : handleEntry w (p, none) m c =
          ([some ⟨p, ct, false, c⟩], setPmap m p ⟨p, ct, false, c⟩, c + 1) := by
        simp [handleEntry, mkProcess, hst]
      rw [hh]
      refine ⟨keysOf_setPmap_nodup p _ hnd, wf_setPmap hwf rfl, ?_, ?_, ?_, ?_, ?_⟩
      · intro q hq
        exact alookup_setPmap_other m p _ q hq
      · rw [alookup_setPmap_self]
        simp [StableAt, hst]
      · rw [alookup_setPmap_self]
        simp [yieldOf]
      · intro h0 hh0
        simp at hh0
      · intro hstab
        simp [StableAt, hst] at hstab
  · -- cached pid: entry carries the cached handle
    have hp : proc.pid = p := hwf (p, proc) (alookup_mem hem)
    rcases hgone : proc.gone with _ | _
    · -- cached handle not marked gone
      rcases hst : w.status p with _ | _ | ct
      · -- pid dead: is_running sets gone and returns false, replacement
        -- construction raises NoSuchProcess, pid removed
        have hrun : isRunningE w proc = .ok (false, { proc with gone := true }) := by
          simp [isRunningE, hgone, mkProcess, hp, hst]
        have hh : handleEntry w (p, some proc) m c = ([], removePmap m p, c) := by
          simp [handleEntry, hrun, mkProcess, hst]
        rw [hh]
        refine ⟨keysOf_removePmap_nodup p hnd, wf_removePmap hwf, ?_, ?_, ?_, ?_, ?_⟩
        · intro q hq
          exact alookup_removePmap_other m p q hq
        · rw [alookup_removePmap_self]
          simp [StableAt, hst]
        · rw [alookup_removePmap_self]
          simp [yieldOf, hst]
        · intro h0 hh0 hr0
          injection hh0 with hh0
          subst hh0
          rw [hrun] at hr0
          simp at hr0
        · intro hstab
          simp [StableAt, hst] at hstab
      · -- provider constructor raises AccessDenied inside is_running:
        -- process_iter yields the stale cached handle
        have hrun : isRunningE w proc = .error (.accessDenied p) := by
          simp [isRunningE, hgone, mkProcess, hp, hst]
        have hh : handleEntry w (p, some proc) m c = ([some proc], m, c) := by
          simp [handleEntry, hrun]
        rw [hh]
        refine ⟨hnd, hwf, fun q _ => rfl, ?_, ?_, ?_, fun _ => hem⟩
        · rw [hem]
          simp [StableAt, hst]
        · rw [hem]
          simp [yieldOf, hst]
        · intro h0 hh0 hr0
          injection hh0 with hh0
          subst hh0
          rw [hrun] at hr0
          simp at hr0
      · -- pid live: identity comparison decides reuse
        have hrun : isRunningE w proc = .ok (decide (proc.identCt = ct), proc) := by
          simp [isRunningE, hgone, mkProcess, hp, hst]
        by_cases hid : proc.identCt = ct
        · -- identity matches: yield the cached object, cache untouched
          have hrun2 : isRunningE w proc = .ok (true, proc) := by
            rw [hrun, decide_eq_true hid]
          have hh : handleEntry w (p, some proc) m c = ([some proc], m, c) := by
            simp [handleEntry, hrun2]
          rw [hh]
          refine ⟨hnd, hwf, fun q _ => rfl, ?_, ?_, fun h0 hh0 _ => ?_, fun _ => hem⟩
          · rw [hem]
            simp [StableAt, hst, hp, hid, hgone]
          · rw [hem]
            simp [yieldOf]
          · injection hh0 with hh0
            subst hh0
            exact hem
        · -- PID reused: construct, cache and yield a replacement handle
          have hrun2 : isRunningE w proc = .ok (false, proc) := by
            rw [hrun, decide_eq_false hid]
          have hh : handleEntry w (p, some proc) m c =
              ([some ⟨p, ct, false, c⟩], setPmap m p ⟨p, ct, false, c⟩, c + 1) := by
            simp [handleEntry, hrun2, mkProcess, hst]
          rw [hh]
          refine ⟨keysOf_setPmap_nodup p _ hnd, wf_setPmap hwf rfl, ?_, ?_, ?_, ?_, ?_⟩
          · intro q hq
            exact alookup_setPmap_other m p _ q hq
          · rw [alookup_setPmap_self]
            simp [StableAt, hst]
          · rw [alookup_setPmap_self]
            simp [yieldOf]
          · intro h0 hh0 hr0
            injection hh0 with hh0
            subst hh0
            rw [hrun2] at hr0
            simp at hr0
          · intro hstab
            simp [StableAt, hst] at hstab
            exact absurd hstab.2.1 hid
    · -- cached handle already marked gone: is_running is false immediately
      have hrun : isRunningE w proc = .ok (false, proc) := by
        simp [isRunningE, hgone]
      rcases hst : w.status p with _ | _ | ct
      · have hh : handleEntry w (p, some proc) m c = ([], removePmap m p, c) := by
          simp [handleEntry, hrun, mkProcess, hst]
        rw [hh]
        refine ⟨keysOf_removePmap_nodup p hnd, wf_removePmap hwf, ?_, ?_, ?_, ?_, ?_⟩
        · intro q hq
          exact alookup_removePmap_other m p q hq
        · rw [alookup_removePmap_self]
          simp [StableAt, hst]
        · rw [alookup_removePmap_self]
          simp [yieldOf, hst]
        · intro h0 hh0 hr0
          injection hh0 with hh0
          subst hh0
          rw [hrun] at hr0
          simp at hr0
        · intro hstab
          simp [StableAt, hst] at hstab
      · have hh : handleEntry w (p, some proc) m c = ([some proc], m, c) := by
          simp [handleEntry, hrun, mkProcess, hst]
        rw [hh]
        refine ⟨hnd, hwf, fun q _ => rfl, ?_, ?_, ?_, fun _ => hem⟩
        · rw [hem]
          simp [StableAt, hst]
        · rw [hem]
          simp [yieldOf, hst]
        · intro h0 hh0 hr0
          injection hh0 with hh0
          subst hh0
          rw [hrun] at hr0
          simp at hr0
      · have hh : handleEntry w (p, some proc) m c =
            ([some ⟨p, ct, false, c⟩], setPmap m p ⟨p, ct, false, c⟩, c + 1) := by
          simp [handleEntry, hrun, mkProcess, hst]
        rw [hh]
        refine ⟨keysOf_setPmap_nodup p _ hnd, wf_setPmap hwf rfl, ?_, ?_, ?_, ?_, ?_⟩
        · intro q hq
          exact alookup_setPmap_other m p _ q hq
        · rw [alookup_setPmap_self]
          simp [StableAt, hst]
        · rw [alookup_setPmap_self]
          simp [yieldOf]
        · intro h0 hh0 hr0
          injection hh0 with hh0
          subst hh0
          rw [hrun] at hr0
          simp at hr0
        · intro hstab
          simp [StableAt, hst] at hstab
          rw [hstab.2.2] at hgone
          exact absurd hgone Bool.false_ne_true

theorem processEntries_spec (w : World) :
    ∀ (entries : List (ℕ × Option PHandle)) (m : List (ℕ × PHandle)) (c : ℕ),
    (keysOf m).Nodup → (∀ x ∈ m, x.2.pid = x.1) →
    (entries.map Prod.fst).Nodup →
    (∀ e ∈ entries, alookup e.1 m = e.2) →
    ((keysOf (processEntries w entries m c).2.1).Nodup ∧
     (∀ x ∈ (processEntries w entries m c).2.1, x.2.pid = x.1) ∧
     (∀ q, q ∉ entries.map Prod.fst →
        alookup q (processEntries w entries m c).2.1 = alookup q m) ∧
     (∀ p, p ∈ entries.map Prod.fst →
        StableAt w p (alookup p (processEntries w entries m c).2.1)) ∧
     (processEntries w entries m c).1 =
        yieldsSpec w (processEntries w entries m c).2.1 (entries.map Prod.fst) ∧
     (∀ p h0, alookup p m = some h0 → isRunningE w h0 = .ok (true, h0) →
        alookup p (processEntries w entries m c).2.1 = some h0) ∧
     (∀ p, p ∈ entries.map Prod.fst → StableAt w p (alookup p m) →
        alookup p (processEntries w entries m c).2.1 = alookup p m)) := by
  intro entries
  induction entries with
  | nil =>
    intro m c hnd hwf _ _
    exact ⟨hnd, hwf, fun q _ => rfl, by simp, rfl, fun p h0 hl _ => hl, by simp⟩
  | cons e rest ih =>
    intro m c hnd hwf hen hem
    rcases e with ⟨p, eo⟩
    have hpnr : p ∉ rest.map Prod.fst := (List.nodup_cons.1 hen).1
    have hrnd : (rest.map Prod.fst).Nodup := (List.nodup_cons.1 hen).2
    have hstep := handleEntry_spec w p eo m c hnd hwf
      (hem (p, eo) (List.mem_cons_self _ _))
    rcases hstep with ⟨k1, k2, k3, k4, k5, k6, k7⟩
    have hem1 : ∀ e2 ∈ rest, alookup e2.1 (handleEntry w (p, eo) m c).2.1 = e2.2 := by
      intro e2 he2
      have hne : e2.1 ≠ p := by
        intro hc
        exact hpnr (hc ▸ List.mem_map.2 ⟨e2, he2, rfl⟩)
      rw [k3 e2.1 hne]
      exact hem e2 (List.mem_cons_of_mem _ he2)
    have hih := ih (handleEntry w (p, eo) m c).2.1 (handleEntry w (p, eo) m c).2.2
      k1 k2 hrnd hem1
    rcases hih with ⟨g1, g2, g3, g4, g5, g6, g7⟩
    have hunf : processEntries w ((p, eo) :: rest) m c =
        ((handleEntry w (p, eo) m c).1 ++
          (processEntries w rest (handleEntry w (p, eo) m c).2.1
            (handleEntry w (p, eo) m c).2.2).1,
         (processEntries w rest (handleEntry w (p, eo) m c).2.1
            (handleEntry w (p, eo) m c).2.2).2.1,
         (processEntries w rest (handleEntry w (p, eo) m c).2.1
            (handleEntry w (p, eo) m c).2.2).2.2) := rfl
    rw [hunf]
    have hmfp : alookup p (processEntries w rest (handleEntry w (p, eo) m c).2.1
        (handleEntry w (p, eo) m c).2.2).2.1 =
        alookup p (handleEntry w (p, eo) m c).2.1 := g3 p hpnr
    refine ⟨g1, g2, ?_, ?_, ?_, ?_, ?_⟩
    · intro q hq
      have hq1 : q ∉ rest.map Prod.fst := fun hc =>
        hq (List.mem_cons_of_mem _ hc)
      have hq2 : q ≠ p := fun hc =>
        hq (by rw [hc]; exact List.mem_cons_self _ _)
      rw [g3 q hq1, k3 q hq2]
    · intro p2 hp2
      rcases List.mem_cons.1 hp2 with rfl | hp3
      · rw [hmfp]
        exact k4
      · exact g4 p2 hp3
    · show _ ++ _ = yieldsSpec w _ (p :: rest.map Prod.fst)
      rw [yieldsSpec, hmfp, ← k5, ← g5]
    · intro p2 h0 hl hr
      by_cases hp2 : p2 = p
      · subst hp2
        have hm2 : alookup p2 m = eo := hem (p2, eo) (List.mem_cons_self _ _)
        have heo : eo = some h0 := by
          rw [hm2] at hl
          exact hl
        rw [hmfp]
        exact k6 h0 heo hr
      · have hl1 : alookup p2 (handleEntry w (p, eo) m c).2.1 = some h0 := by
          rw [k3 p2 hp2]
          exact hl
        exact g6 p2 h0 hl1 hr
    · intro p2 hp2 hstab
      rcases List.mem_cons.1 hp2 with rfl | hp3
      · have hm2 : alookup p2 m = eo := hem (p2, eo) (List.mem_cons_self _ _)
        have hstab2 : StableAt w p2 eo := by
          rw [← hm2]
          exact hstab
        have heq2 := k7 hstab2
        rw [hmfp, heq2]
        exact hm2.symm
      · have hne : p2 ≠ p := by
          intro hc
          exact hpnr (hc ▸ hp3)
        have hstab1 : StableAt w p2 (alookup p2 (handleEntry w (p, eo) m c).2.1) := by
          rw [k3 p2 hne]
          exact hstab
        rw [g7 p2 hp3 hstab1, k3 p2 hne]

theorem pairwise_lt_of_pairwise_le_nodup {l : List ℕ}
    (hle : l.Pairwise (· ≤ ·)) (hnd : l.Nodup) : l.Pairwise (· < ·) := by
  induction l with
  | nil => simp
  | cons a t ih =>
    rcases List.pairwise_cons.1 hle with ⟨ha, ht⟩
    rcases List.nodup_cons.1 hnd with ⟨hna, hnt⟩
    refine List.pairwise_cons.2 ⟨fun b hb => lt_of_le_of_ne (ha b hb) ?_, ih ht hnt⟩
    rintro rfl
    exact hna hb

theorem yieldsSpec_congr (w : World) (m1 m2 : List (ℕ × PHandle)) :
    ∀ keys : List ℕ, (∀ p ∈ keys, alookup p m1 = alookup p m2) →
    yieldsSpec w m1 keys = yieldsSpec w m2 keys := by
  intro keys
  induction keys with
  | nil => intro _; rfl
  | cons p rest ih =>
    intro hk
    rw [yieldsSpec, yieldsSpec, hk p (List.mem_cons_self _ _),
      ih (fun q hq => hk q (List.mem_cons_of_mem _ hq))]

theorem yieldsSpec_pids_sublist (w : World) (m : List (ℕ × PHandle))
    (hwf : ∀ x ∈ m, x.2.pid = x.1) :
    ∀ keys : List ℕ,
    (((yieldsSpec w m keys).filterMap id).map PHandle.pid).Sublist keys := by
  intro keys
  induction keys with
  | nil => simp [yieldsSpec]
  | cons p rest ih =>
    rw [yieldsSpec, List.filterMap_append, List.map_append]
    rcases hl : alookup p m with _ | h
    · rcases hst : w.status p with _ | _ | ct <;>
        · simp only [yieldOf]
          exact List.Sublist.cons p ih
    · have hpid : h.pid = p := hwf (p, h) (alookup_mem hl)
      simp only [yieldOf]
      have : ((([some h] : List (Option PHandle)).filterMap id).map PHandle.pid) = [p] := by
        simp [hpid]
      rw [this]
      exact List.Sublist.cons₂ p ih

theorem mem_yieldsSpec_of_alookup (w : World) (m : List (ℕ × PHandle)) :
    ∀ (keys : List ℕ) (p : ℕ) (h : PHandle), p ∈ keys → alookup p m = some h →
    some h ∈ yieldsSpec w m keys := by
  intro keys
  induction keys with
  | nil => intro p h hp; simp at hp
  | cons q rest ih =>
    intro p h hp hl
    rw [yieldsSpec]
    rcases List.mem_cons.1 hp with rfl | hp2
    · rw [hl]
      rcases w.status p with _ | _ | ct <;> simp [yieldOf]
    · exact List.mem_append_right _ (ih p h hp2 hl)

theorem keysOf_filter_subset {pred : (ℕ × PHandle) → Bool}
    {m : List (ℕ × PHandle)} {q : ℕ} (hq : q ∈ keysOf (m.filter pred)) :
    q ∈ keysOf m := by
  rcases List.mem_map.1 hq with ⟨e, he, rfl⟩
  exact List.mem_map.2 ⟨e, List.mem_of_mem_filter he, rfl⟩

theorem mem_newPids_iff (listing : List ℕ) (m0 : List (ℕ × PHandle)) (q : ℕ) :
    q ∈ newPids listing m0 ↔ q ∈ listing.dedup ∧ q ∉ keysOf m0 := by
  simp [newPids, List.mem_filter]

theorem mem_keysOf_pmapPurged_iff (listing : List ℕ) (m0 : List (ℕ × PHandle))
    (q : ℕ) :
    q ∈ keysOf (pmapPurged listing m0) ↔ q ∈ keysOf m0 ∧ q ∈ listing.dedup := by
  constructor
  · intro hq
    rcases List.mem_map.1 hq with ⟨e, he, rfl⟩
    rcases List.mem_filter.1 he with ⟨hm, hcond⟩
    have hcond2 : e.1 ∉ gonePids listing m0 := by simpa using hcond
    refine ⟨List.mem_map.2 ⟨e, hm, rfl⟩, ?_⟩
    by_contra hnd
    exact hcond2 (List.mem_filter.2 ⟨List.mem_map.2 ⟨e, hm, rfl⟩, by simpa using hnd⟩)
  · intro ⟨hk, hd⟩
    rcases List.mem_map.1 hk with ⟨e, he, rfl⟩
    refine List.mem_map.2 ⟨e, List.mem_filter.2 ⟨he, ?_⟩, rfl⟩
    simp only [decide_eq_true_eq]
    intro hcon
    rcases List.mem_filter.1 hcon with ⟨_, hno⟩
    simp only [decide_eq_true_eq] at hno
    exact hno hd

theorem mergedEntries_keys_perm (listing : List ℕ) (m0 : List (ℕ × PHandle)) :
    List.Perm ((mergedEntries listing m0).map Prod.fst)
      (keysOf (pmapPurged listing m0) ++ newPids listing m0) := by
  have hperm := sortEntries_perm ((pmapPurged listing m0).map (fun e => (e.1, some e.2)) ++
    (newPids listing m0).map (fun p => (p, (none : Option PHandle))))
  have := hperm.map Prod.fst
  rw [List.map_append, List.map_map, List.map_map] at this
  have h1 : (Prod.fst ∘ fun e : ℕ × PHandle => (e.1, some e.2)) = Prod.fst := by
    funext e; rfl
  have h2 : (Prod.fst ∘ fun p : ℕ => (p, (none : Option PHandle))) = id := by
    funext p; rfl
  rw [h1, h2, List.map_id] at this
  exact this

theorem mem_mergedEntries_keys_iff (listing : List ℕ) (m0 : List (ℕ × PHandle))
    (q : ℕ) :
    q ∈ (mergedEntries listing m0).map Prod.fst ↔ q ∈ listing.dedup := by
  rw [(mergedEntries_keys_perm listing m0).mem_iff, List.mem_append,
    mem_keysOf_pmapPurged_iff, mem_newPids_iff]
  constructor
  · rintro (⟨_, hd⟩ | ⟨hd, _⟩) <;> exact hd
  · intro hd
    by_cases hk : q ∈ keysOf m0
    · exact Or.inl ⟨hk, hd⟩
    · exact Or.inr ⟨hd, hk⟩

theorem mergedEntries_keys_nodup (listing : List ℕ) (m0 : List (ℕ × PHandle))
    (hnd : (keysOf m0).Nodup) :
    ((mergedEntries listing m0).map Prod.fst).Nodup := by
  refine (mergedEntries_keys_perm listing m0).symm.nodup ?_
  rw [List.nodup_append]
  refine ⟨keysOf_filter_nodup hnd, List.Nodup.filter _ (List.nodup_dedup listing), ?_⟩
  intro q hq hq2
  rcases (mem_newPids_iff listing m0 q).1 hq2 with ⟨_, hk⟩
  exact hk (keysOf_filter_subset hq)

theorem mergedEntries_keys_sorted (listing : List ℕ) (m0 : List (ℕ × PHandle)) :
    ((mergedEntries listing m0).map Prod.fst).Pairwise (· ≤ ·) := by
  have hs := sortEntries_sorted ((pmapPurged listing m0).map (fun e => (e.1, some e.2)) ++
    (newPids listing m0).map (fun p => (p, (none : Option PHandle))))
  exact hs.map Prod.fst (fun a b hab => hab)

theorem mergedEntries_matches (listing : List ℕ) (m0 : List (ℕ × PHandle))
    (hnd : (keysOf m0).Nodup) :
    ∀ e ∈ mergedEntries listing m0, alookup e.1 (pmapPurged listing m0) = e.2 := by
  intro e he
  have hmem := (sortEntries_perm _).mem_iff.1 he
  rcases List.mem_append.1 hmem with hc | hn
  · rcases List.mem_map.1 hc with ⟨x, hx, rfl⟩
    exact alookup_of_mem_nodup (keysOf_filter_nodup hnd) hx
  · rcases List.mem_map.1 hn with ⟨p, hp, rfl⟩
    rcases (mem_newPids_iff listing m0 p).1 hp with ⟨_, hk⟩
    exact alookup_none_of_not_mem_keys
      (fun hc => hk (keysOf_filter_subset hc))

theorem not_mem_gonePids_of_mem_dedup {listing : List ℕ}
    {m : List (ℕ × PHandle)} {p : ℕ} (hd : p ∈ listing.dedup) :
    p ∉ gonePids listing m := by
  intro hcon
  rcases List.mem_filter.1 hcon with ⟨_, hno⟩
  simp only [decide_eq_true_eq] at hno
  exact hno hd

theorem alookup_pmapPurged (listing : List ℕ) (m : List (ℕ × PHandle)) (p : ℕ)
    (hd : p ∈ listing.dedup) :
    alookup p (pmapPurged listing m) = alookup p m :=
  alookup_filter_keep (fun q => decide (q ∉ gonePids listing m)) m p
    (by simpa using not_mem_gonePids_of_mem_dedup hd)

/-- C8: one `process_iter` pass over a fixed snapshot, starting from a
well-formed cache (duplicate-free keys, each handle recorded under its own
pid): (a) the yielded handles are in strictly ascending PID order — in
particular at most one handle per PID; (b) a cached handle whose
`is_running()` check succeeds is itself yielded, not a newly constructed
object (same allocation tag); (c) a second pass over the same snapshot with
no process churn yields exactly the same handle objects. -/
theorem c8_process_iter_reuse (listing : List ℕ) (w : World)
    (m0 : List (ℕ × PHandle)) (c0 : ℕ)
    (hnd : (keysOf m0).Nodup) (hwf : ∀ x ∈ m0, x.2.pid = x.1) :
    ((((process_iter listing w m0 c0).1.filterMap id).map PHandle.pid).Pairwise
      (· < ·)) ∧
    (∀ p h, alookup p m0 = some h → p ∈ listing →
      isRunningE w h = .ok (true, h) →
      some h ∈ (process_iter listing w m0 c0).1) ∧
    ((process_iter listing w (process_iter listing w m0 c0).2.1
        (process_iter listing w m0 c0).2.2).1 =
      (process_iter listing w m0 c0).1) := by
  have hnd1 : (keysOf (pmapPurged listing m0)).Nodup := keysOf_filter_nodup hnd
  have hwf1 : ∀ x ∈ pmapPurged listing m0, x.2.pid = x.1 :=
    fun x hx => hwf x (List.mem_of_mem_filter hx)
  obtain ⟨g1, g2, g3, g4, g5, g6, g7⟩ := processEntries_spec w
    (mergedEntries listing m0) (pmapPurged listing m0) c0 hnd1 hwf1
    (mergedEntries_keys_nodup listing m0 hnd) (mergedEntries_matches listing m0 hnd)
  have hpi : process_iter listing w m0 c0 =
      processEntries w (mergedEntries listing m0) (pmapPurged listing m0) c0 := rfl
  have hkey1lt : ((mergedEntries listing m0).map Prod.fst).Pairwise (· < ·) :=
    pairwise_lt_of_pairwise_le_nodup (mergedEntries_keys_sorted listing m0)
      (mergedEntries_keys_nodup listing m0 hnd)
  refine ⟨?_, ?_, ?_⟩
  · rw [hpi, g5]
    exact List.Pairwise.sublist
      (yieldsSpec_pids_sublist w _ g2 ((mergedEntries listing m0).map Prod.fst))
      hkey1lt
  · intro p h hl hlist hrun
    have hd : p ∈ listing.dedup := List.mem_dedup.2 hlist
    have hpp : alookup p (pmapPurged listing m0) = some h := by
      rw [alookup_pmapPurged listing m0 p hd]
      exact hl
    have hm1 := g6 p h hpp hrun
    have hpk : p ∈ (mergedEntries listing m0).map Prod.fst :=
      (mem_mergedEntries_keys_iff listing m0 p).2 hd
    rw [hpi, g5]
    exact mem_yieldsSpec_of_alookup w _ _ p h hpk hm1
  · -- second pass: write m1, c1 for the cache and counter after the first
    rw [hpi]
    have hnd2 : (keysOf (processEntries w (mergedEntries listing m0)
        (pmapPurged listing m0) c0).2.1).Nodup := g1
    obtain ⟨f1, f2, f3, f4, f5, f6, f7⟩ := processEntries_spec w
      (mergedEntries listing (processEntries w (mergedEntries listing m0)
        (pmapPurged listing m0) c0).2.1)
      (pmapPurged listing (processEntries w (mergedEntries listing m0)
        (pmapPurged listing m0) c0).2.1)
      (processEntries w (mergedEntries listing m0) (pmapPurged listing m0) c0).2.2
      (keysOf_filter_nodup g1)
      (fun x hx => g2 x (List.mem_of_mem_filter hx))
      (mergedEntries_keys_nodup listing _ g1)
      (mergedEntries_matches listing _ g1)
    have hpi2 : process_iter listing w (processEntries w (mergedEntries listing m0)
        (pmapPurged listing m0) c0).2.1 (processEntries w (mergedEntries listing m0)
        (pmapPurged listing m0) c0).2.2 =
        processEntries w (mergedEntries listing (processEntries w
          (mergedEntries listing m0) (pmapPurged listing m0) c0).2.1)
          (pmapPurged listing (processEntries w (mergedEntries listing m0)
            (pmapPurged listing m0) c0).2.1)
          (processEntries w (mergedEntries listing m0)
            (pmapPurged listing m0) c0).2.2 := rfl
    rw [hpi2, f5]
    have hkeyeq : (mergedEntries listing (processEntries w (mergedEntries listing m0)
        (pmapPurged listing m0) c0).2.1).map Prod.fst =
        (mergedEntries listing m0).map Prod.fst := by
      have hperm : List.Perm ((mergedEntries listing (processEntries w
          (mergedEntries listing m0) (pmapPurged listing m0) c0).2.1).map Prod.fst)
          ((mergedEntries listing m0).map Prod.fst) := by
        rw [List.perm_ext_iff_of_nodup (mergedEntries_keys_nodup listing _ g1)
          (mergedEntries_keys_nodup listing m0 hnd)]
        intro q
        rw [mem_mergedEntries_keys_iff, mem_mergedEntries_keys_iff]
      exact List.eq_of_perm_of_sorted hperm
        (mergedEntries_keys_sorted listing _) (mergedEntries_keys_sorted listing m0)
    rw [hkeyeq, g5]
    apply yieldsSpec_congr
    intro p hp
    have hd : p ∈ listing.dedup := (mem_mergedEntries_keys_iff listing m0 p).1 hp
    have hstab : StableAt w p (alookup p (processEntries w (mergedEntries listing m0)
        (pmapPurged listing m0) c0).2.1) := g4 p hp
    have hpurg := alookup_pmapPurged listing (processEntries w
      (mergedEntries listing m0) (pmapPurged listing m0) c0).2.1 p hd
    have hstab2 : StableAt w p (alookup p (pmapPurged listing (processEntries w
        (mergedEntries listing m0) (pmapPurged listing m0) c0).2.1)) := by
      rw [hpurg]
      exact hstab
    have hkeep := f7 p (by rw [hkeyeq]; exact hp) hstab2
    rw [hkeep, hpurg]

theorem rcLookup_setRc_self : ∀ (m : List (ℕ × Option ℤ)) (p : ℕ) (rc : Option ℤ),
    rcLookup p (setRc m p rc) = some rc := by
  intro m p rc
  by_cases hmem : p ∈ m.map Prod.fst
  · rw [setRc, if_pos hmem]
    induction m with
    | nil => simp at hmem
    | cons e rest ih =>
      by_cases he : e.1 = p
      · simp [rcLookup, he]
      · have hrest : p ∈ rest.map Prod.fst := by
          rcases List.mem_cons.1 (show p ∈ e.1 :: rest.map Prod.fst from hmem) with
            hc | hc
          · exact absurd hc.symm he
          · exact hc
        simp only [List.map_cons, if_neg he, rcLookup, if_neg he]
        exact ih hrest
  · rw [setRc, if_neg hmem]
    induction m with
    | nil => simp [rcLookup]
    | cons e rest ih =>
      have hne : e.1 ≠ p := by
        intro hcon
        exact hmem (by
          rw [← hcon]
          exact List.mem_cons_self _ _)
      have hrest : p ∉ rest.map Prod.fst := by
        intro hcon
        exact hmem (List.mem_cons_of_mem _ hcon)
      simp only [List.cons_append, rcLookup, if_neg hne]
      exact ih hrest

theorem rcLookup_setRc_other (m : List (ℕ × Option ℤ)) (p : ℕ) (rc : Option ℤ)
    (q : ℕ) (hq : q ≠ p) : rcLookup q (setRc m p rc) = rcLookup q m := by
  by_cases hmem : p ∈ m.map Prod.fst
  · rw [setRc, if_pos hmem]
    clear hmem
    induction m with
    | nil => rfl
    | cons e rest ih =>
      by_cases he : e.1 = p
      · have hne : ¬ ((p, rc).1 = q) := fun hc => hq hc.symm
        have hne2 : ¬ (e.1 = q) := fun hc => hq (he ▸ hc).symm
        simp only [List.map_cons, if_pos he, rcLookup, if_neg hne, if_neg hne2]
        exact ih
      · by_cases heq : e.1 = q
        · have hfe : (if e.1 = p then (p, rc) else e) = e := if_neg he
          simp only [List.map_cons, hfe, rcLookup, if_pos heq]
        · simp only [List.map_cons, if_neg he, rcLookup, if_neg heq]
          exact ih
  · rw [setRc, if_neg hmem]
    induction m with
    | nil => simp [rcLookup, if_neg (fun hc => hq hc.symm : ¬ (p = q))]
    | cons e rest ih =>
      have hrest : p ∉ rest.map Prod.fst := by
        intro hcon
        exact hmem (List.mem_cons_of_mem _ hcon)
      by_cases heq : e.1 = q
      · simp [rcLookup, heq]
      · simp only [List.cons_append, rcLookup, if_neg heq]
        exact ih hrest

theorem count_map_moved_cb (ps : List ℕ) (p : ℕ) :
    (ps.map WEvent.moved).count (.cb p) = 0 := by
  induction ps with
  | nil => rfl
  | cons q rest ih => simpa [List.count_cons] using ih

theorem count_map_moved_moved (ps : List ℕ) (p : ℕ) (hnd : ps.Nodup) :
    (ps.map WEvent.moved).count (.moved p) = if p ∈ ps then 1 else 0 := by
  induction ps with
  | nil => rfl
  | cons q rest ih =>
    rcases List.nodup_cons.1 hnd with ⟨hq, hrest⟩
    by_cases hpq : p = q
    · subst hpq
      simp [List.count_cons, ih hrest, if_neg hq]
    · simp [List.count_cons, ih hrest, hpq, Ne.symm hpq]

theorem count_cb_single (q p : ℕ) :
    ([WEvent.cb q] : List WEvent).count (.cb p) = if p = q then 1 else 0 := by
  by_cases hpq : p = q <;> simp [List.count_cons, hpq]

theorem count_moved_single_cb (q p : ℕ) :
    ([WEvent.cb q] : List WEvent).count (.moved p) = 0 := by
  simp [List.count_cons]

theorem cbBefore_append {t es : List WEvent}
    (H : ∀ p j, t.get? j = some (.moved p) →
      ∃ i, i < j ∧ t.get? i = some (.cb p))
    (hes : ∀ p, (WEvent.moved p) ∈ es → (WEvent.cb p) ∈ t) :
    ∀ p j, (t ++ es).get? j = some (.moved p) →
      ∃ i, i < j ∧ (t ++ es).get? i = some (.cb p) := by
  intro p j hj
  by_cases hjl : j < t.length
  · rw [List.get?_append hjl] at hj
    rcases H p j hj with ⟨i, hij, hi⟩
    exact ⟨i, hij, by rw [List.get?_append (lt_trans hij hjl)]; exact hi⟩
  · push_neg at hjl
    rw [List.get?_append_right hjl] at hj
    have hmem : WEvent.moved p ∈ es := List.get?_mem hj
    have hcb : WEvent.cb p ∈ t := hes p hmem
    rcases List.get?_of_mem hcb with ⟨i, hi⟩
    have hil : i < t.length := by
      by_contra hcon
      push_neg at hcon
      rw [List.get?_eq_none.2 hcon] at hi
      cases hi
    exact ⟨i, lt_of_lt_of_le hil hjl, by rw [List.get?_append hil]; exact hi⟩

theorem check_gone_inv (env : WEnv) (cbGiven : Bool) {procs : List ℕ}
    {s : WState} {p : ℕ} (inv : WInv procs cbGiven s)
    (hpa : p ∈ s.alive) (hpg : p ∉ s.gone) :
    WInv procs cbGiven (check_gone env cbGiven s p) ∧
    (check_gone env cbGiven s p).alive = s.alive ∧
    (∀ q, q ∈ (check_gone env cbGiven s p).gone → q ∈ s.gone ∨ q = p) ∧
    (∀ q, q ∈ s.gone → q ∈ (check_gone env cbGiven s p).gone) := by
  rcases houtc : env.outcome s.wk with _ | ⟨rc, running⟩
  · have hcz : check_gone env cbGiven s p = { s with wk := s.wk + 1 } := by
      simp [check_gone, houtc]
    rw [hcz]
    exact ⟨⟨inv.aliveNd, inv.goneNd, inv.cover, inv.rcSet, inv.cbCount,
      inv.movedCount, inv.cbBeforeMoved⟩, rfl,
      fun q hq => Or.inl hq, fun q hq => hq⟩
  · by_cases hcond : (rc.isSome || !running) = true
    · have hcz : check_gone env cbGiven s p =
          { s with
            wk := s.wk + 1,
            rcMap := setRc s.rcMap p rc,
            gone := s.gone ++ [p],
            trace := s.trace ++ (if cbGiven then [.cb p] else []) } := by
        simp only [check_gone, houtc, hcond, if_pos, if_neg hpg]
      rw [hcz]
      have hgone2 : ∀ q, q ∈ s.gone ++ [p] ↔ q ∈ s.gone ∨ q = p := by
        intro q
        rw [List.mem_append, List.mem_singleton]
      refine ⟨⟨inv.aliveNd, ?_, ?_, ?_, ?_, ?_, ?_⟩, rfl, ?_, ?_⟩
      · exact List.Nodup.append inv.goneNd (List.nodup_singleton _)
          (by simpa using fun hx => hpg hx)
      · intro q
        have hc := inv.cover q
        rw [hgone2]
        constructor
        · rintro ((hg | rfl) | ha)
          · exact hc.1 (Or.inl hg)
          · exact hc.1 (Or.inr hpa)
          · exact hc.1 (Or.inr ha)
        · intro hd
          rcases hc.2 hd with hg | ha
          · exact Or.inl (Or.inl hg)
          · exact Or.inr ha
      · intro q hq
        rcases (hgone2 q).1 hq with hg | rfl
        · have hqp : q ≠ p := by
            intro hcon
            exact hpg (hcon ▸ hg)
          rw [rcLookup_setRc_other s.rcMap p rc q hqp]
          exact inv.rcSet q hg
        · rw [rcLookup_setRc_self]
          rfl
      · intro q
        have hbase := inv.cbCount q
        rcases hcb : cbGiven with _ | _
        · rw [hcb] at hbase
          rw [List.count_append]
          simp only [Bool.false_eq_true, and_false, if_false] at hbase ⊢
          simpa using hbase
        · rw [hcb] at hbase
          rw [List.count_append]
          by_cases hqp : q = p
          · subst hqp
            have h0 : s.trace.count (WEvent.cb q) = 0 := by
              rw [hbase]
              simp [hpg]
            have h1 : q ∈ s.gone ++ [q] := (hgone2 q).2 (Or.inr rfl)
            simp [h0, count_cb_single, h1]
          · have hiff : (q ∈ s.gone ++ [p]) ↔ q ∈ s.gone := by
              rw [hgone2]
              constructor
              · rintro (h | h)
                · exact h
                · exact absurd h hqp
              · exact Or.inl
            by_cases hg : q ∈ s.gone <;>
              simp [hbase, hg, hiff, count_cb_single, hqp]
      · intro q
        rw [List.count_append]
        have hes : (if cbGiven then [WEvent.cb p] else []).count (WEvent.moved q) = 0 := by
          rcases cbGiven with _ | _
          · rfl
          · simp [count_moved_single_cb p q]
        rw [hes, Nat.add_zero, inv.movedCount q]
        by_cases hqp : q = p
        · subst hqp
          simp [hpg, hpa, (hgone2 q).2 (Or.inr rfl)]
        · by_cases hg : q ∈ s.gone
          · have h2 : q ∈ s.gone ++ [p] := (hgone2 q).2 (Or.inl hg)
            simp [hg, h2]
          · have h2 : q ∉ s.gone ++ [p] := by
              rw [hgone2]
              rintro (hc | hc)
              · exact hg hc
              · exact hqp hc
            simp [hg, h2]
      · intro hcbg
        refine cbBefore_append (inv.cbBeforeMoved hcbg) ?_
        intro q hq
        rcases hcbg2 : cbGiven with _ | _
        · rw [hcbg2] at hq
          simp at hq
        · rw [hcbg2] at hq
          simp at hq
      · intro q hq
        exact (hgone2 q).1 hq
      · intro q hq
        exact (hgone2 q).2 (Or.inl hq)
    · have hcz : check_gone env cbGiven s p = { s with wk := s.wk + 1 } := by
        simp only [check_gone, houtc]
        rw [if_neg hcond]
      rw [hcz]
      exact ⟨⟨inv.aliveNd, inv.goneNd, inv.cover, inv.rcSet, inv.cbCount,
        inv.movedCount, inv.cbBeforeMoved⟩, rfl,
        fun q hq => Or.inl hq, fun q hq => hq⟩

theorem WInv_tk {procs : List ℕ} {cbGiven : Bool} {s : WState} (k : ℕ)
    (inv : WInv procs cbGiven s) : WInv procs cbGiven { s with tk := k } :=
  ⟨inv.aliveNd, inv.goneNd, inv.cover, inv.rcSet, inv.cbCount,
    inv.movedCount, inv.cbBeforeMoved⟩

theorem sweep_inv (env : WEnv) (cbGiven tog : Bool) (d : ℚ) (n : ℕ)
    {procs : List ℕ} :
    ∀ (l : List ℕ) (s : WState) (t : ℚ),
    WInv procs cbGiven s → l.Nodup → (∀ q ∈ l, q ∈ s.alive) →
    (∀ q ∈ l, q ∉ s.gone) →
    WInv procs cbGiven (sweep env cbGiven tog d n l s t).1 ∧
    (sweep env cbGiven tog d n l s t).1.alive = s.alive := by
  intro l
  induction l with
  | nil => intro s t inv _ _ _; exact ⟨inv, rfl⟩
  | cons p rest ih =>
    intro s t inv hnd hal hgo
    have hrestnd : rest.Nodup := (List.nodup_cons.1 hnd).2
    have hpnr : p ∉ rest := (List.nodup_cons.1 hnd).1
    have hpa : p ∈ s.alive := hal p (List.mem_cons_self _ _)
    have hpg : p ∉ s.gone := hgo p (List.mem_cons_self _ _)
    rcases htog : tog with _ | _
    all_goals rw [htog] at ih
    · have hunf : sweep env cbGiven false d n (p :: rest) s t =
          sweep env cbGiven false d n rest (check_gone env cbGiven s p) t := rfl
      rw [hunf]
      obtain ⟨inv2, hal2, hgsub, _⟩ := check_gone_inv env cbGiven inv hpa hpg
      have hih := ih (check_gone env cbGiven s p) t inv2 hrestnd
        (fun q hq => by
          rw [hal2]
          exact hal q (List.mem_cons_of_mem _ hq))
        (fun q hq hqg => by
          rcases hgsub q hqg with hc | hc
          · exact hgo q (List.mem_cons_of_mem _ hq) hc
          · exact hpnr (hc ▸ hq))
      exact ⟨hih.1, by rw [hih.2, hal2]⟩
    · have hunf : sweep env cbGiven true d n (p :: rest) s t =
          if min (d - env.clock s.tk) (1 / (n : ℚ)) ≤ 0 then
            ({ s with tk := s.tk + 1 }, min (d - env.clock s.tk) (1 / (n : ℚ)))
          else
            sweep env cbGiven true d n rest
              (check_gone env cbGiven { s with tk := s.tk + 1 } p)
              (min (d - env.clock s.tk) (1 / (n : ℚ))) := rfl
      rw [hunf]
      by_cases ht2 : min (d - env.clock s.tk) (1 / (n : ℚ)) ≤ 0
      · rw [if_pos ht2]
        exact ⟨WInv_tk (s.tk + 1) inv, rfl⟩
      · rw [if_neg ht2]
        have inv2 : WInv procs cbGiven { s with tk := s.tk + 1 } :=
          WInv_tk (s.tk + 1) inv
        obtain ⟨inv3, hal3, hgsub, _⟩ := check_gone_inv env cbGiven inv2 hpa hpg
        have hih := ih (check_gone env cbGiven { s with tk := s.tk + 1 } p)
          (min (d - env.clock s.tk) (1 / (n : ℚ))) inv3 hrestnd
          (fun q hq => by
            rw [hal3]
            exact hal q (List.mem_cons_of_mem _ hq))
          (fun q hq hqg => by
            rcases hgsub q hqg with hc | hc
            · exact hgo q (List.mem_cons_of_mem _ hq) hc
            · exact hpnr (hc ▸ hq))
        exact ⟨hih.1, by rw [hih.2, hal3]⟩

theorem subtractGone_inv {procs : List ℕ} {cbGiven : Bool} {s : WState}
    (inv : WInv procs cbGiven s) :
    WInv procs cbGiven (subtractGone s) ∧
    (subtractGone s).gone = s.gone ∧
    (∀ q ∈ (subtractGone s).alive, q ∉ (subtractGone s).gone) := by
  have hmemal : ∀ q, q ∈ (subtractGone s).alive ↔ (q ∈ s.alive ∧ q ∉ s.gone) := by
    intro q
    simp [subtractGone, List.mem_filter]
  have hremnd : (s.alive.filter (fun p => decide (p ∈ s.gone))).Nodup :=
    List.Nodup.filter _ inv.aliveNd
  have hremmem : ∀ q, q ∈ s.alive.filter (fun p => decide (p ∈ s.gone)) ↔
      (q ∈ s.alive ∧ q ∈ s.gone) := by
    intro q
    simp [List.mem_filter]
  refine ⟨⟨List.Nodup.filter _ inv.aliveNd, inv.goneNd, ?_, inv.rcSet, ?_, ?_, ?_⟩,
    rfl, ?_⟩
  · intro q
    have hc := inv.cover q
    constructor
    · rintro (hg | ha)
      · exact hc.1 (Or.inl hg)
      · exact hc.1 (Or.inr ((hmemal q).1 ha).1)
    · intro hd
      rcases hc.2 hd with hg | ha
      · exact Or.inl hg
      · by_cases hgq : q ∈ s.gone
        · exact Or.inl hgq
        · exact Or.inr ((hmemal q).2 ⟨ha, hgq⟩)
  · intro q
    show (s.trace ++ _).count _ = _
    rw [List.count_append, count_map_moved_cb, Nat.add_zero]
    exact inv.cbCount q
  · intro q
    have hsg : (subtractGone s).gone = s.gone := rfl
    show (s.trace ++ _).count _ = _
    rw [List.count_append, count_map_moved_moved _ _ hremnd, inv.movedCount q]
    by_cases hg : q ∈ s.gone
    · by_cases ha : q ∈ s.alive
      · have h1 : q ∉ s.alive → False := fun hc => hc ha
        have h2 : q ∈ s.alive.filter (fun p => decide (p ∈ s.gone)) :=
          (hremmem q).2 ⟨ha, hg⟩
        have h3 : q ∉ (subtractGone s).alive := by
          rw [hmemal]
          rintro ⟨_, hc⟩
          exact hc hg
        simp [hg, ha, h2, h3, hsg]
      · have h2 : q ∉ s.alive.filter (fun p => decide (p ∈ s.gone)) := by
          rw [hremmem]
          rintro ⟨hc, _⟩
          exact ha hc
        have h3 : q ∉ (subtractGone s).alive := by
          rw [hmemal]
          rintro ⟨hc, _⟩
          exact ha hc
        simp [hg, ha, h2, h3, hsg]
    · have h2 : q ∉ s.alive.filter (fun p => decide (p ∈ s.gone)) := by
        rw [hremmem]
        rintro ⟨_, hc⟩
        exact hg hc
      simp [hg, h2, hsg]
  · intro hcbg
    refine cbBefore_append (inv.cbBeforeMoved hcbg) ?_
    intro q hq
    rcases List.mem_map.1 hq with ⟨x, hx, hxq⟩
    have hxq2 : x = q := by injection hxq
    rw [hxq2] at hx
    have hqg : q ∈ s.gone := ((hremmem q).1 hx).2
    have hcnt : s.trace.count (.cb q) = 1 := by
      rw [inv.cbCount q]
      simp [hqg, hcbg]
    by_contra hcon
    rw [List.count_eq_zero.2 hcon] at hcnt
    exact absurd hcnt.symm one_ne_zero
  · intro q hq
    exact ((hmemal q).1 hq).2

theorem foldl_check_gone_inv (env : WEnv) (cbGiven : Bool) {procs : List ℕ} :
    ∀ (l : List ℕ) (s : WState),
    WInv procs cbGiven s → l.Nodup → (∀ q ∈ l, q ∈ s.alive) →
    (∀ q ∈ l, q ∉ s.gone) →
    WInv procs cbGiven (l.foldl (check_gone env cbGiven) s) ∧
    (l.foldl (check_gone env cbGiven) s).alive = s.alive := by
  intro l
  induction l with
  | nil => intro s inv _ _ _; exact ⟨inv, rfl⟩
  | cons p rest ih =>
    intro s inv hnd hal hgo
    have hrestnd : rest.Nodup := (List.nodup_cons.1 hnd).2
    have hpnr : p ∉ rest := (List.nodup_cons.1 hnd).1
    obtain ⟨inv2, hal2, hgsub, _⟩ := check_gone_inv env cbGiven inv
      (hal p (List.mem_cons_self _ _)) (hgo p (List.mem_cons_self _ _))
    rw [List.foldl_cons]
    have hih := ih (check_gone env cbGiven s p) inv2 hrestnd
      (fun q hq => by
        rw [hal2]
        exact hal q (List.mem_cons_of_mem _ hq))
      (fun q hq hqg => by
        rcases hgsub q hqg with hc | hc
        · exact hgo q (List.mem_cons_of_mem _ hq) hc
        · exact hpnr (hc ▸ hq))
    exact ⟨hih.1, by rw [hih.2, hal2]⟩

theorem wait_loop_inv (env : WEnv) (cbGiven tog : Bool) (d : ℚ)
    {procs : List ℕ} :
    ∀ (fuel : ℕ) (s : WState) (t : ℚ) (s1 : WState) (t1 : ℚ),
    WInv procs cbGiven s → (∀ q ∈ s.alive, q ∉ s.gone) →
    wait_loop env cbGiven tog d fuel s t = some (s1, t1) →
    WInv procs cbGiven s1 ∧ (∀ q ∈ s1.alive, q ∉ s1.gone) := by
  intro fuel
  induction fuel with
  | zero =>
    intro s t s1 t1 _ _ h
    simp [wait_loop] at h
  | succ fuel ih =>
    intro s t s1 t1 inv disj hrun
    rw [show wait_loop env cbGiven tog d (fuel + 1) s t =
        (if s.alive.isEmpty then some (s, t)
         else if tog = true ∧ t ≤ 0 then some (s, t)
         else wait_loop env cbGiven tog d fuel
           (subtractGone (sweep env cbGiven tog d s.alive.length s.alive s t).1)
           (sweep env cbGiven tog d s.alive.length s.alive s t).2) from rfl] at hrun
    by_cases hemp : s.alive.isEmpty = true
    · rw [if_pos hemp] at hrun
      have heq := Option.some.inj hrun
      have hs : s = s1 := congrArg Prod.fst heq
      rw [← hs]
      exact ⟨inv, disj⟩
    · rw [if_neg hemp] at hrun
      by_cases hto : tog = true ∧ t ≤ 0
      · rw [if_pos hto] at hrun
        have heq := Option.some.inj hrun
        have hs : s = s1 := congrArg Prod.fst heq
        rw [← hs]
        exact ⟨inv, disj⟩
      · rw [if_neg hto] at hrun
        have hsw := sweep_inv env cbGiven tog d s.alive.length s.alive s t inv
          inv.aliveNd (fun q hq => hq) disj
        have hsub := subtractGone_inv hsw.1
        exact ih _ _ _ _ hsub.1 hsub.2.2 hrun

theorem final_sweep_inv (env : WEnv) (cbGiven : Bool) {procs : List ℕ}
    {s : WState} (inv : WInv procs cbGiven s)
    (disj : ∀ q ∈ s.alive, q ∉ s.gone) :
    WInv procs cbGiven (final_sweep env cbGiven s) ∧
    (∀ q ∈ (final_sweep env cbGiven s).alive,
      q ∉ (final_sweep env cbGiven s).gone) := by
  rw [final_sweep]
  by_cases hemp : s.alive.isEmpty = true
  · rw [if_pos hemp]
    exact ⟨inv, disj⟩
  · rw [if_neg hemp]
    have hf := foldl_check_gone_inv env cbGiven s.alive s inv inv.aliveNd
      (fun q hq => hq) disj
    exact ⟨(subtractGone_inv hf.1).1, (subtractGone_inv hf.1).2.2⟩

theorem WInv_init (procs : List ℕ) (cbGiven : Bool) (tk0 : ℕ) :
    WInv procs cbGiven ⟨[], procs.dedup, [], [], 0, tk0⟩ := by
  refine ⟨List.nodup_dedup procs, List.nodup_nil, ?_, ?_, ?_, ?_, ?_⟩
  · intro p
    simp
  · intro p hp
    simp at hp
  · intro p
    simp
  · intro p
    simp
  · intro _ p j hj
    simp at hj

theorem wait_procs_inv (env : WEnv) (cbGiven : Bool) (procs : List ℕ)
    (timeout : Option ℚ) (fuel : ℕ) (s1 : WState)
    (hrun : wait_procs env cbGiven procs timeout fuel = .ok (some s1)) :
    WInv procs cbGiven s1 ∧ (∀ q ∈ s1.alive, q ∉ s1.gone) := by
  rcases timeout with _ | t
  · rcases hloop : wait_loop env cbGiven false 0 fuel
        ⟨[], procs.dedup, [], [], 0, 0⟩ 0 with _ | ⟨sl, tl⟩
    · rw [show wait_procs env cbGiven procs none fuel =
          (match wait_loop env cbGiven false 0 fuel
            ⟨[], procs.dedup, [], [], 0, 0⟩ 0 with
          | none => Except.ok none
          | some (sx, _) => Except.ok (some (final_sweep env cbGiven sx))) from rfl,
        hloop] at hrun
      simp at hrun
    · rw [show wait_procs env cbGiven procs none fuel =
          (match wait_loop env cbGiven false 0 fuel
            ⟨[], procs.dedup, [], [], 0, 0⟩ 0 with
          | none => Except.ok none
          | some (sx, _) => Except.ok (some (final_sweep env cbGiven sx))) from rfl,
        hloop] at hrun
      have hs1 : final_sweep env cbGiven sl = s1 := by
        have := Except.ok.inj hrun
        exact Option.some.inj this
      have hli := wait_loop_inv env cbGiven false 0 fuel
        ⟨[], procs.dedup, [], [], 0, 0⟩ 0 sl tl (WInv_init procs cbGiven 0)
        (by intro q _ hq; simp at hq) hloop
      rw [← hs1]
      exact final_sweep_inv env cbGiven hli.1 hli.2
  · by_cases hneg : ¬ (0 ≤ t)
    · rw [show wait_procs env cbGiven procs (some t) fuel =
          (if ¬ (0 ≤ t) then Except.error () else
            match wait_loop env cbGiven true (env.clock 0 + t) fuel
              ⟨[], procs.dedup, [], [], 0, 1⟩ t with
            | none => Except.ok none
            | some (sx, _) => Except.ok (some (final_sweep env cbGiven sx))) from rfl,
        if_pos hneg] at hrun
      simp at hrun
    · rcases hloop : wait_loop env cbGiven true (env.clock 0 + t) fuel
          ⟨[], procs.dedup, [], [], 0, 1⟩ t with _ | ⟨sl, tl⟩
      · rw [show wait_procs env cbGiven procs (some t) fuel =
            (if ¬ (0 ≤ t) then Except.error () else
              match wait_loop env cbGiven true (env.clock 0 + t) fuel
                ⟨[], procs.dedup, [], [], 0, 1⟩ t with
              | none => Except.ok none
              | some (sx, _) => Except.ok (some (final_sweep env cbGiven sx))) from rfl,
          if_neg hneg, hloop] at hrun
        simp at hrun
      · rw [show wait_procs env cbGiven procs (some t) fuel =
            (if ¬ (0 ≤ t) then Except.error () else
              match wait_loop env cbGiven true (env.clock 0 + t) fuel
                ⟨[], procs.dedup, [], [], 0, 1⟩ t with
              | none => Except.ok none
              | some (sx, _) => Except.ok (some (final_sweep env cbGiven sx))) from rfl,
          if_neg hneg, hloop] at hrun
        have hs1 : final_sweep env cbGiven sl = s1 := by
          have := Except.ok.inj hrun
          exact Option.some.inj this
        have hli := wait_loop_inv env cbGiven true (env.clock 0 + t) fuel
          ⟨[], procs.dedup, [], [], 0, 1⟩ t sl tl (WInv_init procs cbGiven 1)
          (by intro q _ hq; simp at hq) hloop
        rw [← hs1]
        exact final_sweep_inv env cbGiven hli.1 hli.2

/-- C5: whenever `wait_procs` returns, the `gone` and `alive` lists are
disjoint, together they cover exactly the input handles, and every gone
handle carries a `returncode` attribute (whose value may be `None`). -/
theorem c5_wait_procs_partition (env : WEnv) (cbGiven : Bool) (procs : List ℕ)
    (timeout : Option ℚ) (fuel : ℕ) (s : WState)
    (hrun : wait_procs env cbGiven procs timeout fuel = .ok (some s)) :
    (∀ p ∈ s.gone, p ∉ s.alive) ∧
    (∀ p, (p ∈ s.gone ∨ p ∈ s.alive) ↔ p ∈ procs) ∧
    (∀ p ∈ s.gone, (rcLookup p s.rcMap).isSome = true) := by
  obtain ⟨inv, disj⟩ := wait_procs_inv env cbGiven procs timeout fuel s hrun
  refine ⟨fun p hg ha => disj p ha hg, fun p => ?_, inv.rcSet⟩
  rw [inv.cover p, List.mem_dedup]

/-- C6: in a `wait_procs` run with a callback, the callback fires exactly
once per handle that ends up gone, never for a handle that stays alive, and
each firing happens before the handle's move out of the alive set (the
`alive = alive - gone` update). -/
theorem c6_wait_procs_callback (env : WEnv) (procs : List ℕ)
    (timeout : Option ℚ) (fuel : ℕ) (s : WState)
    (hrun : wait_procs env true procs timeout fuel = .ok (some s)) :
    (∀ p ∈ s.gone, s.trace.count (.cb p) = 1) ∧
    (∀ p ∈ s.alive, s.trace.count (.cb p) = 0) ∧
    (∀ p ∈ s.gone, ∃ i j, i < j ∧ s.trace.get? i = some (.cb p) ∧
      s.trace.get? j = some (.moved p)) := by
  obtain ⟨inv, disj⟩ := wait_procs_inv env true procs timeout fuel s hrun
  refine ⟨?_, ?_, ?_⟩
  · intro p hp
    rw [inv.cbCount p]
    simp [hp]
  · intro p hp
    rw [inv.cbCount p]
    simp [disj p hp]
  · intro p hp
    have hnal : p ∉ s.alive := fun ha => disj p ha hp
    have hm : s.trace.count (.moved p) = 1 := by
      rw [inv.movedCount p]
      simp [hp, hnal]
    have hmem : WEvent.moved p ∈ s.trace := by
      by_contra hc
      rw [List.count_eq_zero.2 hc] at hm
      exact absurd hm.symm one_ne_zero
    obtain ⟨j, hj⟩ := List.get?_of_mem hmem
    obtain ⟨i, hij, hi⟩ := inv.cbBeforeMoved rfl p j hj
    exact ⟨i, j, hij, hi, hj⟩

theorem c5_wait_procs_witness :
    wait_procs wEnvW true [1, 2] none 2 = .ok (some sW) ∧
    ((∀ p ∈ sW.gone, p ∉ sW.alive) ∧
     (∀ p, (p ∈ sW.gone ∨ p ∈ sW.alive) ↔ p ∈ [1, 2]) ∧
     (∀ p ∈ sW.gone, (rcLookup p sW.rcMap).isSome = true)) :=
  ⟨rfl, c5_wait_procs_partition wEnvW true [1, 2] none 2 sW rfl⟩

theorem c6_wait_procs_witness :
    wait_procs wEnvW true [3] none 2 = .ok (some sW6) ∧
    ((∀ p ∈ sW6.gone, sW6.trace.count (.cb p) = 1) ∧
     (∀ p ∈ sW6.alive, sW6.trace.count (.cb p) = 0) ∧
     (∀ p ∈ sW6.gone, ∃ i j, i < j ∧ sW6.trace.get? i = some (.cb p) ∧
       sW6.trace.get? j = some (.moved p))) :=
  ⟨rfl, c6_wait_procs_callback wEnvW [3] none 2 sW6 rfl⟩

theorem c8_process_iter_witness :
    (keysOf ([] : List (ℕ × PHandle))).Nodup ∧
    (((((process_iter [2, 1] wIterW [] 0).1.filterMap id).map PHandle.pid).Pairwise
       (· < ·)) ∧
     (∀ p h, alookup p ([] : List (ℕ × PHandle)) = some h → p ∈ [2, 1] →
       isRunningE wIterW h = .ok (true, h) →
       some h ∈ (process_iter [2, 1] wIterW [] 0).1) ∧
     ((process_iter [2, 1] wIterW (process_iter [2, 1] wIterW [] 0).2.1
        (process_iter [2, 1] wIterW [] 0).2.2).1 =
       (process_iter [2, 1] wIterW [] 0).1)) :=
  ⟨by simp [keysOf],
   c8_process_iter_reuse [2, 1] wIterW [] 0 (by simp [keysOf]) (by simp)⟩

theorem c2_gone_sticky_witness :
    isRunningE wC2a ⟨5, some 100, true, 0⟩ = .ok (false, ⟨5, some 100, true, 0⟩) ∧
    isRunningE wC2a ⟨7, some 100, false, 0⟩ = .ok (false, ⟨7, some 100, true, 0⟩) ∧
    isRunningE wC2a ⟨5, some 100, false, 0⟩ = .ok (decide ((some (100 : ℚ)) = some 200), ⟨5, some 100, false, 0⟩) ∧
    _send_signal wC2a ⟨7, some 100, false, 0⟩ 15 =
      (.error (.noSuchProcess 7), ⟨7, some 100, true, 0⟩) :=
  ⟨c2_gone_sticky_amended.1 wC2a ⟨5, some 100, true, 0⟩ rfl,
   c2_gone_sticky_amended.2.1 wC2a ⟨7, some 100, false, 0⟩ rfl rfl,
   c2_gone_sticky_amended.2.2.1 wC2a ⟨5, some 100, false, 0⟩ (some 200) rfl rfl,
   c2_gone_sticky_amended.2.2.2 wC2a ⟨7, some 100, false, 0⟩ 15 rfl⟩

end Psutil
